import Mathlib

/-!
Verification of the `mvx` transfer engine against its design document.

The filesystem is modelled as a finite tree of named entries.  A node is a
regular file carrying its byte content, a directory carrying a list of named
children, or a `special` entry (anything that is neither a regular file nor a
directory: broken symlink, FIFO, socket, ...).  Paths are lists of components,
mirroring `std::path::Path` after normalisation.  The functions below are
shallow embeddings of `src/file.rs`, `src/dir.rs` and `src/lib.rs`: each
definition mirrors one Rust function, with OS primitives (`fs::rename`,
`reflink`) driven by an oracle describing the error the OS would report.
-/

namespace Mvx

/-- File contents as a list of bytes. -/
abbrev Content := List Nat

/-- A filesystem node: regular file, directory, or anything else
(`special` stands for entries that are neither regular files nor
directories, e.g. broken symlinks, FIFOs, sockets). -/
inductive Node where
  | file (content : Content)
  | dir (entries : List (String × Node))
  | special

abbrev Entries := List (String × Node)

/-- A path, as its list of components. -/
abbrev Path := List String

/-- Look a name up in a directory's entry list. -/
def findEntry : Entries → String → Option Node
  | [], _ => none
  | (k, v) :: es, name => if k = name then some v else findEntry es name

/-- Insert or replace the entry with the given name. -/
def setEntry : Entries → String → Node → Entries
  | [], name, n => [(name, n)]
  | (k, v) :: es, name, n =>
    if k = name then (k, n) :: es else (k, v) :: setEntry es name n

/-- Drop every entry with the given name. -/
def removeEntry : Entries → String → Entries
  | [], _ => []
  | (k, v) :: es, name =>
    if k = name then removeEntry es name else (k, v) :: removeEntry es name

/-- Resolve a path inside a node. -/
def Node.lookup : Node → Path → Option Node
  | n, [] => some n
  | .dir es, k :: ks =>
    match findEntry es k with
    | some m => Node.lookup m ks
    | none => none
  | .file _, _ :: _ => none
  | .special, _ :: _ => none

/-- `Path::exists()`. -/
def existsAt (fs : Node) (p : Path) : Bool := (fs.lookup p).isSome

/-- `Path::is_file()`: the path resolves to a regular file. -/
def isFileAt (fs : Node) (p : Path) : Bool :=
  match fs.lookup p with
  | some (.file _) => true
  | _ => false

/-- `Path::is_dir()`: the path resolves to a directory. -/
def isDirAt (fs : Node) (p : Path) : Bool :=
  match fs.lookup p with
  | some (.dir _) => true
  | _ => false

/-- The byte content of the regular file at `p`, if any. -/
def contentAt (fs : Node) (p : Path) : Option Content :=
  match fs.lookup p with
  | some (.file c) => some c
  | _ => none

/-- Boolean prefix test on paths (used to state side conditions). -/
def isPre : Path → Path → Bool
  | [], _ => true
  | _ :: _, [] => false
  | a :: as, b :: bs => a = b && isPre as bs

theorem pre_cons {a : String} {as bs : Path} (h : as <+: bs) :
    (a :: as) <+: (a :: bs) := by
  rcases h with ⟨t, rfl⟩
  exact ⟨t, rfl⟩

theorem isPre_iff (a b : Path) : isPre a b = true ↔ a <+: b := by
  induction a generalizing b with
  | nil => simp [isPre]
  | cons x xs ih =>
    cases b with
    | nil => simp [isPre]
    | cons y ys =>
      simp only [isPre, Bool.and_eq_true, decide_eq_true_eq, ih]
      constructor
      · rintro ⟨rfl, h⟩
        exact pre_cons h
      · intro h
        rcases h with ⟨t, ht⟩
        injection ht with h1 h2
        exact ⟨h1, ⟨t, h2⟩⟩

theorem isPre_refl (a : Path) : isPre a a = true :=
  (isPre_iff a a).mpr ⟨[], by simp⟩

/-- Two prefixes of the same list are comparable. -/
theorem pre_total {x y z : Path} (hx : x <+: z) (hy : y <+: z) :
    x <+: y ∨ y <+: x := by
  rcases hx with ⟨tx, rfl⟩
  induction x generalizing y with
  | nil => exact Or.inl (List.nil_prefix)
  | cons a as ih =>
    cases y with
    | nil => exact Or.inr (List.nil_prefix)
    | cons b bs =>
      rcases hy with ⟨ty, hty⟩
      injection hty with h1 h2
      subst h1
      rcases ih ⟨ty, h2⟩ with h | h
      · exact Or.inl (pre_cons h)
      · exact Or.inr (pre_cons h)

theorem append_pre_append_iff (x a b : Path) : (x ++ a) <+: (x ++ b) ↔ a <+: b := by
  constructor
  · rintro ⟨t, ht⟩
    refine ⟨t, ?_⟩
    have := ht
    rw [List.append_assoc] at this
    exact List.append_cancel_left this
  · rintro ⟨t, rfl⟩
    exact ⟨t, by simp⟩

theorem pre_append (x a : Path) : x <+: (x ++ a) := ⟨a, rfl⟩

/-! ### Entry-list lemmas -/

theorem findEntry_setEntry_self (es : Entries) (k : String) (n : Node) :
    findEntry (setEntry es k n) k = some n := by
  induction es with
  | nil => simp [setEntry, findEntry]
  | cons e es ih =>
    obtain ⟨k', v⟩ := e
    by_cases h : k' = k
    · simp [setEntry, findEntry, h]
    · simp [setEntry, findEntry, h, ih]

theorem findEntry_setEntry_other (es : Entries) (k k' : String) (n : Node)
    (h : k' ≠ k) : findEntry (setEntry es k n) k' = findEntry es k' := by
  have h' : k ≠ k' := Ne.symm h
  induction es with
  | nil => simp [setEntry, findEntry, h']
  | cons e es ih =>
    obtain ⟨k0, v⟩ := e
    by_cases h0 : k0 = k
    · subst h0
      simp [setEntry, findEntry, h']
    · simp [setEntry, findEntry, h0, ih]

theorem findEntry_removeEntry_self (es : Entries) (k : String) :
    findEntry (removeEntry es k) k = none := by
  induction es with
  | nil => simp [removeEntry, findEntry]
  | cons e es ih =>
    obtain ⟨k0, v⟩ := e
    by_cases h : k0 = k
    · simp [removeEntry, findEntry, h, ih]
    · simp [removeEntry, findEntry, h, ih]

theorem findEntry_removeEntry_other (es : Entries) (k k' : String) (h : k' ≠ k) :
    findEntry (removeEntry es k) k' = findEntry es k' := by
  have h' : k ≠ k' := Ne.symm h
  induction es with
  | nil => simp [removeEntry, findEntry]
  | cons e es ih =>
    obtain ⟨k0, v⟩ := e
    by_cases h0 : k0 = k
    · subst h0
      simp [removeEntry, findEntry, h', ih]
    · simp [removeEntry, findEntry, h0, ih]

/-! ### Lookup lemmas -/

theorem lookup_append (fs : Node) (p q : Path) :
    fs.lookup (p ++ q) = (fs.lookup p).bind (fun n => n.lookup q) := by
  induction p generalizing fs with
  | nil => simp [Node.lookup]
  | cons k ks ih =>
    cases fs with
    | file c => simp [Node.lookup]
    | special => simp [Node.lookup]
    | dir es =>
      simp only [List.cons_append, Node.lookup]
      cases findEntry es k with
      | none => simp
      | some m => simpa using ih m

/-- Prefixes of an existing path exist. -/
theorem lookup_pre_isSome {fs : Node} {p q : Path} (hpq : q <+: p)
    (hp : (fs.lookup p).isSome) : (fs.lookup q).isSome := by
  rcases hpq with ⟨t, rfl⟩
  rw [lookup_append] at hp
  cases h : fs.lookup q with
  | none => rw [h] at hp; simp at hp
  | some m => simp

/-- Nothing lies strictly below a regular file. -/
theorem lookup_under_file {fs : Node} {p q : Path} {c : Content}
    (hp : fs.lookup p = some (.file c)) (hpq : p <+: q) (hne : q ≠ p) :
    fs.lookup q = none := by
  rcases hpq with ⟨t, rfl⟩
  cases t with
  | nil => simp at hne
  | cons a as =>
    rw [lookup_append, hp]
    simp [Node.lookup]

/-- Nothing lies strictly below a `special` entry. -/
theorem lookup_under_special {fs : Node} {p q : Path}
    (hp : fs.lookup p = some .special) (hpq : p <+: q) (hne : q ≠ p) :
    fs.lookup q = none := by
  rcases hpq with ⟨t, rfl⟩
  cases t with
  | nil => simp at hne
  | cons a as =>
    rw [lookup_append, hp]
    simp [Node.lookup]

/-- Nothing lies below an absent path. -/
theorem lookup_under_none {fs : Node} {p q : Path}
    (hp : fs.lookup p = none) (hpq : p <+: q) : fs.lookup q = none := by
  rcases hpq with ⟨t, rfl⟩
  rw [lookup_append, hp]
  rfl

/-- `special` status of a path. -/
def isSpecialAt (fs : Node) (p : Path) : Bool :=
  match fs.lookup p with
  | some .special => true
  | _ => false

/-- The path is absent or is a directory (the condition under which
`fs::create_dir_all` can pass through it). -/
def dirOrAbsentB (fs : Node) (p : Path) : Bool :=
  match fs.lookup p with
  | none => true
  | some (.dir _) => true
  | _ => false

/-! ### Editing one entry at the end of a path

`fs::remove_file`, `File::create` and `fs::remove_dir` all descend to the
parent directory of the target path and then act on a single named entry;
`Node.editAt` captures that common shape. -/

def Node.editAt (act : Entries → String → Option Entries) :
    Node → Path → Option Node
  | .dir es, [k] => (act es k).map Node.dir
  | .dir es, k :: k2 :: ks =>
    match findEntry es k with
    | some m =>
      (Node.editAt act m (k2 :: ks)).map (fun m' => .dir (setEntry es k m'))
    | none => none
  | _, _ => none

theorem editAt_frame {act : Entries → String → Option Entries}
    (hact : ∀ es k es', act es k = some es' →
      ∀ k', k' ≠ k → findEntry es' k' = findEntry es k') :
    ∀ {n n' : Node} {p : Path}, Node.editAt act n p = some n' →
      ∀ q, ¬ q <+: p → ¬ p <+: q → n'.lookup q = n.lookup q := by
  intro n n' p
  induction p generalizing n n' with
  | nil => intro h; cases n <;> simp [Node.editAt] at h
  | cons k rest ih =>
    intro h q hq1 hq2
    cases n with
    | file c => simp [Node.editAt] at h
    | special => simp [Node.editAt] at h
    | dir es =>
      cases q with
      | nil => exact absurd (List.nil_prefix) hq1
      | cons k1 qs =>
        by_cases hk : k1 = k
        · subst hk
          have hq1' : ¬ qs <+: rest := fun hp => hq1 (pre_cons hp)
          have hq2' : ¬ rest <+: qs := fun hp => hq2 (pre_cons hp)
          cases rest with
          | nil =>
            exact absurd (List.nil_prefix) hq2'
          | cons k2 ks =>
            simp only [Node.editAt] at h
            cases hfe : findEntry es k1 with
            | none => rw [hfe] at h; simp at h
            | some m =>
              rw [hfe] at h
              dsimp only at h
              cases hrec : Node.editAt act m (k2 :: ks) with
              | none => rw [hrec] at h; simp at h
              | some m' =>
                rw [hrec] at h
                simp only [Option.map_some', Option.some.injEq] at h
                subst h
                show Node.lookup (.dir (setEntry es k1 m')) (k1 :: qs) =
                  Node.lookup (.dir es) (k1 :: qs)
                simp only [Node.lookup, findEntry_setEntry_self, hfe]
                exact ih hrec qs hq1' hq2'
        · -- different first component: the edited entry is irrelevant
          cases rest with
          | nil =>
            simp only [Node.editAt] at h
            cases hae : act es k with
            | none => rw [hae] at h; simp at h
            | some es' =>
              rw [hae] at h
              simp only [Option.map_some', Option.some.injEq] at h
              subst h
              show Node.lookup (.dir es') (k1 :: qs) = Node.lookup (.dir es) (k1 :: qs)
              simp only [Node.lookup, hact es k es' hae k1 hk]
          | cons k2 ks =>
            simp only [Node.editAt] at h
            cases hfe : findEntry es k with
            | none => rw [hfe] at h; simp at h
            | some m =>
              rw [hfe] at h
              dsimp only at h
              cases hrec : Node.editAt act m (k2 :: ks) with
              | none => rw [hrec] at h; simp at h
              | some m' =>
                rw [hrec] at h
                simp only [Option.map_some', Option.some.injEq] at h
                subst h
                show Node.lookup (.dir (setEntry es k m')) (k1 :: qs) =
                  Node.lookup (.dir es) (k1 :: qs)
                simp only [Node.lookup, findEntry_setEntry_other es k k1 m' hk]

theorem editAt_parents {act : Entries → String → Option Entries} :
    ∀ {n n' : Node} {p : Path}, Node.editAt act n p = some n' →
      ∀ q, q <+: p → q ≠ p → isDirAt n' q = true ∧ isDirAt n q = true := by
  intro n n' p
  induction p generalizing n n' with
  | nil => intro h; cases n <;> simp [Node.editAt] at h
  | cons k rest ih =>
    intro h q hq hqe
    cases n with
    | file c => simp [Node.editAt] at h
    | special => simp [Node.editAt] at h
    | dir es =>
      cases q with
      | nil =>
        refine ⟨?_, by simp [isDirAt, Node.lookup]⟩
        cases rest with
        | nil =>
          simp only [Node.editAt] at h
          cases hae : act es k with
          | none => rw [hae] at h; simp at h
          | some es' =>
            rw [hae] at h
            simp only [Option.map_some', Option.some.injEq] at h
            subst h
            simp [isDirAt, Node.lookup]
        | cons k2 ks =>
          simp only [Node.editAt] at h
          cases hfe : findEntry es k with
          | none => rw [hfe] at h; simp at h
          | some m =>
            rw [hfe] at h
            dsimp only at h
            cases hrec : Node.editAt act m (k2 :: ks) with
            | none => rw [hrec] at h; simp at h
            | some m' =>
              rw [hrec] at h
              simp only [Option.map_some', Option.some.injEq] at h
              subst h
              simp [isDirAt, Node.lookup]
      | cons k1 qs =>
        rcases hq with ⟨t, ht⟩
        injection ht with h1 h2
        subst h1
        have hq' : qs <+: rest := ⟨t, h2⟩
        have hqe' : qs ≠ rest := fun he => hqe (by rw [he])
        cases rest with
        | nil =>
          rcases hq' with ⟨t', ht'⟩
          simp at ht'
          exact absurd ht'.1 hqe'
        | cons k2 ks =>
          simp only [Node.editAt] at h
          cases hfe : findEntry es k1 with
          | none => rw [hfe] at h; simp at h
          | some m =>
            rw [hfe] at h
            dsimp only at h
            cases hrec : Node.editAt act m (k2 :: ks) with
            | none => rw [hrec] at h; simp at h
            | some m' =>
              rw [hrec] at h
              simp only [Option.map_some', Option.some.injEq] at h
              subst h
              have := ih hrec qs hq' hqe'
              constructor
              · show isDirAt (.dir (setEntry es k1 m')) (k1 :: qs) = true
                simpa [isDirAt, Node.lookup, findEntry_setEntry_self] using this.1
              · show isDirAt (.dir es) (k1 :: qs) = true
                simpa [isDirAt, Node.lookup, hfe] using this.2

/-- Any successful `editAt` factors through the parent directory of the
target: the path splits as `q ++ [k]`, the node at `q` is a directory both
before and after, and the entry list at `q` is rewritten by `act`. -/
theorem editAt_parent {act : Entries → String → Option Entries} :
    ∀ {n n' : Node} {p : Path}, Node.editAt act n p = some n' →
      ∃ q k es es', p = q ++ [k] ∧ n.lookup q = some (.dir es) ∧
        act es k = some es' ∧ n'.lookup q = some (.dir es') := by
  intro n n' p
  induction p generalizing n n' with
  | nil => intro h; cases n <;> simp [Node.editAt] at h
  | cons k rest ih =>
    intro h
    cases n with
    | file c => simp [Node.editAt] at h
    | special => simp [Node.editAt] at h
    | dir es =>
      cases rest with
      | nil =>
        simp only [Node.editAt] at h
        cases hae : act es k with
        | none => rw [hae] at h; simp at h
        | some es' =>
          rw [hae] at h
          simp only [Option.map_some', Option.some.injEq] at h
          subst h
          exact ⟨[], k, es, es', rfl, rfl, hae, rfl⟩
      | cons k2 ks =>
        simp only [Node.editAt] at h
        cases hfe : findEntry es k with
        | none => rw [hfe] at h; simp at h
        | some m =>
          rw [hfe] at h
          dsimp only at h
          cases hrec : Node.editAt act m (k2 :: ks) with
          | none => rw [hrec] at h; simp at h
          | some m' =>
            rw [hrec] at h
            simp only [Option.map_some', Option.some.injEq] at h
            subst h
            obtain ⟨q0, k0, es0, es0', hsplit, hm, ha, hm'⟩ := ih hrec
            refine ⟨k :: q0, k0, es0, es0', by rw [hsplit]; rfl, ?_, ha, ?_⟩
            · show Node.lookup (.dir es) (k :: q0) = some (.dir es0)
              simp only [Node.lookup, hfe, hm]
            · show Node.lookup (.dir (setEntry es k m')) (k :: q0) = some (.dir es0')
              simp only [Node.lookup, findEntry_setEntry_self, hm']

/-- `editAt` succeeds whenever the parent exists as a directory and `act`
accepts its entry list. -/
theorem editAt_exists {act : Entries → String → Option Entries}
    {n : Node} {q : Path} {k : String} {es : Entries}
    (hq : n.lookup q = some (.dir es)) (ha : (act es k).isSome = true) :
    ∃ n', Node.editAt act n (q ++ [k]) = some n' := by
  induction q generalizing n with
  | nil =>
    cases n with
    | file c => simp [Node.lookup] at hq
    | special => simp [Node.lookup] at hq
    | dir es0 =>
      simp only [Node.lookup, Option.some.injEq, Node.dir.injEq] at hq
      subst hq
      cases hae : act es0 k with
      | none => rw [hae] at ha; simp at ha
      | some es' => exact ⟨.dir es', by simp [Node.editAt, hae]⟩
  | cons k1 q1 ih =>
    cases n with
    | file c => simp [Node.lookup] at hq
    | special => simp [Node.lookup] at hq
    | dir es0 =>
      simp only [Node.lookup] at hq
      cases hfe : findEntry es0 k1 with
      | none => rw [hfe] at hq; simp at hq
      | some m =>
        rw [hfe] at hq
        dsimp only at hq
        obtain ⟨m', hm'⟩ := ih hq
        refine ⟨.dir (setEntry es0 k1 m'), ?_⟩
        cases hq1 : q1 ++ [k] with
        | nil => simp at hq1
        | cons a as =>
          show Node.editAt act (.dir es0) (k1 :: (q1 ++ [k])) = _
          rw [hq1]
          simp only [Node.editAt, hfe]
          rw [← hq1, hm']
          rfl

/-! ### The concrete operations built on `editAt` -/

/-- `File::create` followed by writing `c` (also the effect of `fs::rename`
landing at the target): fails if the target exists as a directory or a
special entry, creates or truncates the target file otherwise. -/
def Node.writeFile (n : Node) (p : Path) (c : Content) : Option Node :=
  Node.editAt (fun es k =>
    match findEntry es k with
    | some (.dir _) => none
    | some .special => none
    | _ => some (setEntry es k (.file c))) n p

/-- `fs::remove_file`: fails unless the target is a regular file. -/
def Node.removeFile (n : Node) (p : Path) : Option Node :=
  Node.editAt (fun es k =>
    match findEntry es k with
    | some (.file _) => some (removeEntry es k)
    | _ => none) n p

/-- `fs::remove_dir` on a directory entry whose contents have already been
removed (used by `remove_empty_dir`): drops the entry. -/
def Node.removeDirAt (n : Node) (p : Path) : Option Node :=
  Node.editAt (fun es k =>
    match findEntry es k with
    | some (.dir _) => some (removeEntry es k)
    | _ => none) n p

theorem lookup_single (es : Entries) (k : String) :
    Node.lookup (.dir es) [k] = findEntry es k := by
  simp only [Node.lookup]
  cases findEntry es k <;> rfl

theorem lookup_parent {n : Node} {p : Path} {m0 : Node} (hp : p ≠ [])
    (h : n.lookup p = some m0) :
    ∃ q k es, p = q ++ [k] ∧ n.lookup q = some (.dir es) ∧
      findEntry es k = some m0 := by
  rcases List.eq_nil_or_concat p with rfl | ⟨q, k, rfl⟩
  · exact absurd rfl hp
  · simp only [List.concat_eq_append] at h ⊢
    rw [lookup_append] at h
    cases hq : n.lookup q with
    | none => rw [hq] at h; simp at h
    | some m =>
      rw [hq] at h
      cases m with
      | file c => simp [Node.lookup] at h
      | special => simp [Node.lookup] at h
      | dir es =>
        refine ⟨q, k, es, rfl, hq, ?_⟩
        simpa [lookup_single] using h

/-! ### `writeFile` lemmas -/

theorem writeFile_parent {n n' : Node} {p : Path} {c : Content}
    (h : n.writeFile p c = some n') :
    ∃ q k es, p = q ++ [k] ∧ n.lookup q = some (.dir es) ∧
      (findEntry es k = none ∨ ∃ c0, findEntry es k = some (.file c0)) ∧
      n'.lookup q = some (.dir (setEntry es k (.file c))) := by
  obtain ⟨q, k, es, es', hsplit, hq, ha, hq'⟩ := editAt_parent h
  cases hfe : findEntry es k with
  | none =>
    rw [hfe] at ha
    simp only [Option.some.injEq] at ha
    exact ⟨q, k, es, hsplit, hq, Or.inl hfe, by rw [hq', ha]⟩
  | some m =>
    cases m with
    | file c0 =>
      rw [hfe] at ha
      simp only [Option.some.injEq] at ha
      exact ⟨q, k, es, hsplit, hq, Or.inr ⟨c0, hfe⟩, by rw [hq', ha]⟩
    | dir es0 => rw [hfe] at ha; simp at ha
    | special => rw [hfe] at ha; simp at ha

theorem writeFile_self {n n' : Node} {p : Path} {c : Content}
    (h : n.writeFile p c = some n') : n'.lookup p = some (.file c) := by
  obtain ⟨q, k, es, rfl, hq, _, hq'⟩ := writeFile_parent h
  rw [lookup_append, hq']
  show Node.lookup (.dir (setEntry es k (.file c))) [k] = _
  rw [lookup_single, findEntry_setEntry_self]

theorem writeFile_prior {n n' : Node} {p : Path} {c : Content}
    (h : n.writeFile p c = some n') :
    n.lookup p = none ∨ ∃ c0, n.lookup p = some (.file c0) := by
  obtain ⟨q, k, es, rfl, hq, hfe, _⟩ := writeFile_parent h
  have hx : n.lookup (q ++ [k]) = findEntry es k := by
    rw [lookup_append, hq]
    exact lookup_single es k
  rw [hx]
  rcases hfe with hfe | ⟨c0, hfe⟩
  · exact Or.inl hfe
  · exact Or.inr ⟨c0, hfe⟩

theorem writeFile_frame {n n' : Node} {p : Path} {c : Content}
    (h : n.writeFile p c = some n') :
    ∀ q, ¬ q <+: p → n'.lookup q = n.lookup q := by
  intro q hq
  by_cases h1 : p <+: q
  · have hne : q ≠ p := fun he => hq (by rw [he])
    rw [lookup_under_file (writeFile_self h) h1 hne]
    rcases writeFile_prior h with h2 | ⟨c0, h2⟩
    · rw [lookup_under_none h2 h1]
    · rw [lookup_under_file h2 h1 hne]
  · refine editAt_frame ?_ h q hq h1
    intro es k es' ha k' hk
    cases hfe : findEntry es k with
    | none =>
      rw [hfe] at ha
      simp only [Option.some.injEq] at ha
      rw [← ha, findEntry_setEntry_other es k k' _ hk]
    | some m =>
      cases m with
      | file c0 =>
        rw [hfe] at ha
        simp only [Option.some.injEq] at ha
        rw [← ha, findEntry_setEntry_other es k k' _ hk]
      | dir es0 => rw [hfe] at ha; simp at ha
      | special => rw [hfe] at ha; simp at ha

theorem writeFile_dirMono {n n' : Node} {p : Path} {c : Content}
    (h : n.writeFile p c = some n') :
    ∀ q, isDirAt n q = true → isDirAt n' q = true := by
  intro q hdir
  by_cases h1 : q <+: p
  · by_cases h2 : q = p
    · subst h2
      rcases writeFile_prior h with h3 | ⟨c0, h3⟩ <;>
        simp [isDirAt, h3] at hdir
    · exact (editAt_parents h q h1 h2).1
  · rw [isDirAt, writeFile_frame h q h1]
    exact hdir

theorem writeFile_noNewFile {n n' : Node} {p : Path} {c : Content}
    (h : n.writeFile p c = some n') :
    ∀ q, isFileAt n' q = true → isFileAt n q = true ∨ q = p := by
  intro q hf
  by_cases h2 : q = p
  · exact Or.inr h2
  by_cases h1 : q <+: p
  · have := (editAt_parents h q h1 h2).1
    rw [isFileAt] at hf
    rw [isDirAt] at this
    cases hl : n'.lookup q with
    | none => rw [hl] at hf; simp at hf
    | some m => rw [hl] at hf this; cases m <;> simp_all
  · by_cases h3 : p <+: q
    · rw [isFileAt, lookup_under_file (writeFile_self h) h3 h2] at hf
      simp at hf
    · rw [isFileAt, writeFile_frame h q h1] at hf
      exact Or.inl hf

theorem writeFile_noNewSpecial {n n' : Node} {p : Path} {c : Content}
    (h : n.writeFile p c = some n') :
    ∀ q, isSpecialAt n' q = true → isSpecialAt n q = true := by
  intro q hf
  by_cases h2 : q = p
  · subst h2
    rw [isSpecialAt, writeFile_self h] at hf
    simp at hf
  by_cases h1 : q <+: p
  · have := (editAt_parents h q h1 h2).1
    rw [isSpecialAt] at hf
    rw [isDirAt] at this
    cases hl : n'.lookup q with
    | none => rw [hl] at hf; simp at hf
    | some m => rw [hl] at hf this; cases m <;> simp_all
  · by_cases h3 : p <+: q
    · rw [isSpecialAt, lookup_under_file (writeFile_self h) h3 h2] at hf
      simp at hf
    · rw [isSpecialAt, writeFile_frame h q h1] at hf
      exact hf

theorem writeFile_exists {n : Node} {q : Path} {k : String} {es : Entries}
    (c : Content) (hq : n.lookup q = some (.dir es))
    (hnd : isDirAt n (q ++ [k]) = false) (hns : isSpecialAt n (q ++ [k]) = false) :
    ∃ n', n.writeFile (q ++ [k]) c = some n' := by
  have hlk : n.lookup (q ++ [k]) = Node.lookup (.dir es) [k] := by
    rw [lookup_append, hq]
    rfl
  rw [lookup_single] at hlk
  refine editAt_exists hq ?_
  cases hfe : findEntry es k with
  | none => simp [hfe]
  | some m =>
    cases m with
    | file c0 => simp [hfe]
    | dir es0 =>
      rw [hfe] at hlk
      rw [isDirAt, hlk] at hnd
      simp at hnd
    | special =>
      rw [hfe] at hlk
      rw [isSpecialAt, hlk] at hns
      simp at hns

/-! ### `removeFile` lemmas -/

theorem removeFile_parent {n n' : Node} {p : Path}
    (h : n.removeFile p = some n') :
    ∃ q k es c0, p = q ++ [k] ∧ n.lookup q = some (.dir es) ∧
      findEntry es k = some (.file c0) ∧
      n'.lookup q = some (.dir (removeEntry es k)) := by
  obtain ⟨q, k, es, es', hsplit, hq, ha, hq'⟩ := editAt_parent h
  cases hfe : findEntry es k with
  | none => rw [hfe] at ha; simp at ha
  | some m =>
    cases m with
    | file c0 =>
      rw [hfe] at ha
      simp only [Option.some.injEq] at ha
      exact ⟨q, k, es, c0, hsplit, hq, hfe, by rw [hq', ha]⟩
    | dir es0 => rw [hfe] at ha; simp at ha
    | special => rw [hfe] at ha; simp at ha

theorem removeFile_self {n n' : Node} {p : Path}
    (h : n.removeFile p = some n') : n'.lookup p = none := by
  obtain ⟨q, k, es, c0, rfl, hq, hfe, hq'⟩ := removeFile_parent h
  rw [lookup_append, hq']
  show Node.lookup (.dir (removeEntry es k)) [k] = none
  rw [lookup_single, findEntry_removeEntry_self]

theorem removeFile_prior {n n' : Node} {p : Path}
    (h : n.removeFile p = some n') : ∃ c0, n.lookup p = some (.file c0) := by
  obtain ⟨q, k, es, c0, rfl, hq, hfe, hq'⟩ := removeFile_parent h
  refine ⟨c0, ?_⟩
  rw [lookup_append, hq]
  show Node.lookup (.dir es) [k] = _
  rw [lookup_single, hfe]

theorem removeFile_frame {n n' : Node} {p : Path}
    (h : n.removeFile p = some n') :
    ∀ q, ¬ q <+: p → n'.lookup q = n.lookup q := by
  intro q hq
  by_cases h1 : p <+: q
  · have hne : q ≠ p := fun he => hq (by rw [he])
    rw [lookup_under_none (removeFile_self h) h1]
    obtain ⟨c0, h2⟩ := removeFile_prior h
    rw [lookup_under_file h2 h1 hne]
  · refine editAt_frame ?_ h q hq h1
    intro es k es' ha k' hk
    cases hfe : findEntry es k with
    | none => rw [hfe] at ha; simp at ha
    | some m =>
      cases m with
      | file c0 =>
        rw [hfe] at ha
        simp only [Option.some.injEq] at ha
        rw [← ha, findEntry_removeEntry_other es k k' hk]
      | dir es0 => rw [hfe] at ha; simp at ha
      | special => rw [hfe] at ha; simp at ha

theorem removeFile_dirMono {n n' : Node} {p : Path}
    (h : n.removeFile p = some n') :
    ∀ q, isDirAt n q = true → isDirAt n' q = true := by
  intro q hdir
  by_cases h1 : q <+: p
  · by_cases h2 : q = p
    · subst h2
      obtain ⟨c0, h3⟩ := removeFile_prior h
      simp [isDirAt, h3] at hdir
    · exact (editAt_parents h q h1 h2).1
  · rw [isDirAt, removeFile_frame h q h1]
    exact hdir

theorem removeFile_noNewFile {n n' : Node} {p : Path}
    (h : n.removeFile p = some n') :
    ∀ q, isFileAt n' q = true → isFileAt n q = true := by
  intro q hf
  by_cases h2 : q = p
  · subst h2
    rw [isFileAt, removeFile_self h] at hf
    simp at hf
  by_cases h1 : q <+: p
  · have := (editAt_parents h q h1 h2).1
    rw [isFileAt] at hf
    rw [isDirAt] at this
    cases hl : n'.lookup q with
    | none => rw [hl] at hf; simp at hf
    | some m => rw [hl] at hf this; cases m <;> simp_all
  · by_cases h3 : p <+: q
    · rw [isFileAt, lookup_under_none (removeFile_self h) h3] at hf
      simp at hf
    · rw [isFileAt, removeFile_frame h q h1] at hf
      exact hf

theorem removeFile_noNewSpecial {n n' : Node} {p : Path}
    (h : n.removeFile p = some n') :
    ∀ q, isSpecialAt n' q = true → isSpecialAt n q = true := by
  intro q hf
  by_cases h2 : q = p
  · subst h2
    rw [isSpecialAt, removeFile_self h] at hf
    simp at hf
  by_cases h1 : q <+: p
  · have := (editAt_parents h q h1 h2).1
    rw [isSpecialAt] at hf
    rw [isDirAt] at this
    cases hl : n'.lookup q with
    | none => rw [hl] at hf; simp at hf
    | some m => rw [hl] at hf this; cases m <;> simp_all
  · by_cases h3 : p <+: q
    · rw [isSpecialAt, lookup_under_none (removeFile_self h) h3] at hf
      simp at hf
    · rw [isSpecialAt, removeFile_frame h q h1] at hf
      exact hf

theorem removeFile_exists {n : Node} {p : Path} {c0 : Content}
    (hp : p ≠ []) (h : n.lookup p = some (.file c0)) :
    ∃ n', n.removeFile p = some n' := by
  obtain ⟨q, k, es, rfl, hq, hfe⟩ := lookup_parent hp h
  exact editAt_exists hq (by simp [hfe])

/-! ### `removeDirAt` lemmas -/

theorem removeDirAt_parent {n n' : Node} {p : Path}
    (h : n.removeDirAt p = some n') :
    ∃ q k es es0, p = q ++ [k] ∧ n.lookup q = some (.dir es) ∧
      findEntry es k = some (.dir es0) ∧
      n'.lookup q = some (.dir (removeEntry es k)) := by
  obtain ⟨q, k, es, es', hsplit, hq, ha, hq'⟩ := editAt_parent h
  cases hfe : findEntry es k with
  | none => rw [hfe] at ha; simp at ha
  | some m =>
    cases m with
    | dir es0 =>
      rw [hfe] at ha
      simp only [Option.some.injEq] at ha
      exact ⟨q, k, es, es0, hsplit, hq, hfe, by rw [hq', ha]⟩
    | file c0 => rw [hfe] at ha; simp at ha
    | special => rw [hfe] at ha; simp at ha

theorem removeDirAt_self {n n' : Node} {p : Path}
    (h : n.removeDirAt p = some n') : n'.lookup p = none := by
  obtain ⟨q, k, es, es0, rfl, hq, hfe, hq'⟩ := removeDirAt_parent h
  rw [lookup_append, hq']
  show Node.lookup (.dir (removeEntry es k)) [k] = none
  rw [lookup_single, findEntry_removeEntry_self]

theorem removeDirAt_frame {n n' : Node} {p : Path}
    (h : n.removeDirAt p = some n') :
    ∀ q, ¬ q <+: p → ¬ p <+: q → n'.lookup q = n.lookup q := by
  intro q hq hq2
  refine editAt_frame ?_ h q hq hq2
  intro es k es' ha k' hk
  cases hfe : findEntry es k with
  | none => rw [hfe] at ha; simp at ha
  | some m =>
    cases m with
    | dir es0 =>
      rw [hfe] at ha
      simp only [Option.some.injEq] at ha
      rw [← ha, findEntry_removeEntry_other es k k' hk]
    | file c0 => rw [hfe] at ha; simp at ha
    | special => rw [hfe] at ha; simp at ha

theorem removeDirAt_exists {n : Node} {p : Path} {es0 : Entries}
    (hp : p ≠ []) (h : n.lookup p = some (.dir es0)) :
    ∃ n', n.removeDirAt p = some n' := by
  obtain ⟨q, k, es, rfl, hq, hfe⟩ := lookup_parent hp h
  exact editAt_exists hq (by simp [hfe])

/-! ### `fs::create_dir_all` -/

/-- `fs::create_dir_all`: walk the path, descending through existing
directories and creating missing ones; fail (leaving the directories
created so far in place) when an existing non-directory blocks the walk.
The `Bool` is the success flag. -/
def Node.createDirAll : Node → Path → Node × Bool
  | n, [] =>
    match n with
    | .dir _ => (n, true)
    | _ => (n, false)
  | n, k :: ks =>
    match n with
    | .dir es =>
      match findEntry es k with
      | some m =>
        let r := Node.createDirAll m ks
        (.dir (setEntry es k r.1), r.2)
      | none =>
        let r := Node.createDirAll (.dir []) ks
        (.dir (setEntry es k r.1), r.2)
    | _ => (n, false)

theorem createDirAll_nil_ok (p : Path) :
    (Node.createDirAll (.dir []) p).2 = true := by
  induction p with
  | nil => rfl
  | cons k ks ih => simp [Node.createDirAll, findEntry, ih]

theorem createDirAll_nil_lookup (p : Path) :
    ∀ q, ¬ q <+: p → (Node.createDirAll (.dir []) p).1.lookup q = none := by
  induction p with
  | nil =>
    intro q hq
    cases q with
    | nil => exact absurd (List.nil_prefix) hq
    | cons a as => simp [Node.createDirAll, Node.lookup, findEntry]
  | cons k ks ih =>
    intro q hq
    cases q with
    | nil => exact absurd (List.nil_prefix) hq
    | cons a as =>
      simp only [Node.createDirAll, findEntry]
      by_cases ha : a = k
      · subst ha
        have : ¬ as <+: ks := fun hp => hq (pre_cons hp)
        show Node.lookup (.dir (setEntry [] a _)) (a :: as) = none
        simp only [Node.lookup, setEntry, findEntry, if_pos rfl]
        exact ih as this
      · show Node.lookup (.dir (setEntry [] k _)) (a :: as) = none
        simp only [Node.lookup, setEntry, findEntry]
        rw [if_neg (Ne.symm ha)]

theorem createDirAll_frame (n : Node) (p : Path) :
    ∀ q, ¬ q <+: p → (n.createDirAll p).1.lookup q = n.lookup q := by
  induction p generalizing n with
  | nil =>
    intro q hq
    cases n <;> rfl
  | cons k ks ih =>
    intro q hq
    cases n with
    | file c => rfl
    | special => rfl
    | dir es =>
      cases q with
      | nil => exact absurd (List.nil_prefix) hq
      | cons a as =>
        have hq' : a = k → ¬ as <+: ks := fun he hp => hq (he ▸ pre_cons hp)
        cases hfe : findEntry es k with
        | some m =>
          simp only [Node.createDirAll, hfe]
          by_cases ha : a = k
          · subst ha
            show Node.lookup (.dir (setEntry es a _)) (a :: as) =
              Node.lookup (.dir es) (a :: as)
            simp only [Node.lookup, findEntry_setEntry_self, hfe]
            exact ih m as (hq' rfl)
          · show Node.lookup (.dir (setEntry es k _)) (a :: as) =
              Node.lookup (.dir es) (a :: as)
            simp only [Node.lookup, findEntry_setEntry_other es k a _ ha]
        | none =>
          simp only [Node.createDirAll, hfe]
          by_cases ha : a = k
          · subst ha
            show Node.lookup (.dir (setEntry es a _)) (a :: as) =
              Node.lookup (.dir es) (a :: as)
            simp only [Node.lookup, findEntry_setEntry_self, hfe]
            exact createDirAll_nil_lookup ks as (hq' rfl)
          · show Node.lookup (.dir (setEntry es k _)) (a :: as) =
              Node.lookup (.dir es) (a :: as)
            simp only [Node.lookup, findEntry_setEntry_other es k a _ ha]

theorem createDirAll_ok_iff (n : Node) (p : Path) :
    (n.createDirAll p).2 = true ↔ ∀ q, q <+: p → dirOrAbsentB n q = true := by
  induction p generalizing n with
  | nil =>
    cases n with
    | dir es =>
      simp only [Node.createDirAll]
      constructor
      · intro _ q hq
        rcases List.prefix_nil.mp hq with rfl
        rfl
      · intro _; trivial
    | file c =>
      simp only [Node.createDirAll]
      constructor
      · intro h; exact absurd h (by simp)
      · intro h
        have := h [] (List.nil_prefix)
        simp [dirOrAbsentB, Node.lookup] at this
    | special =>
      simp only [Node.createDirAll]
      constructor
      · intro h; exact absurd h (by simp)
      · intro h
        have := h [] (List.nil_prefix)
        simp [dirOrAbsentB, Node.lookup] at this
  | cons k ks ih =>
    cases n with
    | file c =>
      simp only [Node.createDirAll]
      constructor
      · intro h; exact absurd h (by simp)
      · intro h
        have := h [] (List.nil_prefix)
        simp [dirOrAbsentB, Node.lookup] at this
    | special =>
      simp only [Node.createDirAll]
      constructor
      · intro h; exact absurd h (by simp)
      · intro h
        have := h [] (List.nil_prefix)
        simp [dirOrAbsentB, Node.lookup] at this
    | dir es =>
      cases hfe : findEntry es k with
      | some m =>
        simp only [Node.createDirAll, hfe]
        rw [ih m]
        constructor
        · intro h q hq
          cases q with
          | nil => rfl
          | cons a as =>
            rcases hq with ⟨t, ht⟩
            injection ht with h1 h2
            subst h1
            show dirOrAbsentB (.dir es) (a :: as) = true
            simp only [dirOrAbsentB, Node.lookup, hfe]
            exact h as ⟨t, h2⟩
        · intro h q hq
          have := h (k :: q) (pre_cons hq)
          simp only [dirOrAbsentB, Node.lookup, hfe] at this
          exact this
      | none =>
        simp only [Node.createDirAll, hfe, createDirAll_nil_ok]
        constructor
        · intro _ q hq
          cases q with
          | nil => rfl
          | cons a as =>
            rcases hq with ⟨t, ht⟩
            injection ht with h1 h2
            subst h1
            show dirOrAbsentB (.dir es) (a :: as) = true
            simp only [dirOrAbsentB, Node.lookup, hfe]
        · intro _; trivial

theorem createDirAll_dirs (n : Node) (p : Path) (h : (n.createDirAll p).2 = true) :
    ∀ q, q <+: p → isDirAt (n.createDirAll p).1 q = true := by
  induction p generalizing n with
  | nil =>
    intro q hq
    rcases List.prefix_nil.mp hq with rfl
    cases n with
    | dir es => simp [Node.createDirAll, isDirAt, Node.lookup]
    | file c => simp [Node.createDirAll] at h
    | special => simp [Node.createDirAll] at h
  | cons k ks ih =>
    intro q hq
    cases n with
    | file c => simp [Node.createDirAll] at h
    | special => simp [Node.createDirAll] at h
    | dir es =>
      cases q with
      | nil =>
        cases hfe : findEntry es k <;>
          simp [Node.createDirAll, hfe, isDirAt, Node.lookup]
      | cons a as =>
        rcases hq with ⟨t, ht⟩
        injection ht with h1 h2
        subst h1
        have has : as <+: ks := ⟨t, h2⟩
        cases hfe : findEntry es a with
        | some m =>
          simp only [Node.createDirAll, hfe] at h ⊢
          show isDirAt (.dir (setEntry es a _)) (a :: as) = true
          simp only [isDirAt, Node.lookup, findEntry_setEntry_self]
          exact ih m h as has
        | none =>
          simp only [Node.createDirAll, hfe] at h ⊢
          show isDirAt (.dir (setEntry es a _)) (a :: as) = true
          simp only [isDirAt, Node.lookup, findEntry_setEntry_self]
          exact ih (.dir []) (createDirAll_nil_ok ks) as has

theorem createDirAll_dirMono (n : Node) (p : Path)
    (h : (n.createDirAll p).2 = true) :
    ∀ q, isDirAt n q = true → isDirAt (n.createDirAll p).1 q = true := by
  intro q hdir
  by_cases h1 : q <+: p
  · exact createDirAll_dirs n p h q h1
  · rw [isDirAt, createDirAll_frame n p q h1]
    exact hdir

theorem createDirAll_noNewFile (n : Node) (p : Path)
    (h : (n.createDirAll p).2 = true) :
    ∀ q, isFileAt (n.createDirAll p).1 q = true → isFileAt n q = true := by
  intro q hf
  by_cases h1 : q <+: p
  · have := createDirAll_dirs n p h q h1
    rw [isFileAt] at hf
    rw [isDirAt] at this
    cases hl : (n.createDirAll p).1.lookup q with
    | none => rw [hl] at hf; simp at hf
    | some m => rw [hl] at hf this; cases m <;> simp_all
  · rw [isFileAt, createDirAll_frame n p q h1] at hf
    exact hf

theorem createDirAll_noNewSpecial (n : Node) (p : Path)
    (h : (n.createDirAll p).2 = true) :
    ∀ q, isSpecialAt (n.createDirAll p).1 q = true → isSpecialAt n q = true := by
  intro q hf
  by_cases h1 : q <+: p
  · have := createDirAll_dirs n p h q h1
    rw [isSpecialAt] at hf
    rw [isDirAt] at this
    cases hl : (n.createDirAll p).1.lookup q with
    | none => rw [hl] at hf; simp at hf
    | some m => rw [hl] at hf this; cases m <;> simp_all
  · rw [isSpecialAt, createDirAll_frame n p q h1] at hf
    exact hf

theorem createDirAll_noFileOnChain (n : Node) (p : Path)
    (h : (n.createDirAll p).2 = true) :
    ∀ q, q <+: p → isFileAt n q = false := by
  intro q hq
  have := (createDirAll_ok_iff n p).mp h q hq
  rw [dirOrAbsentB] at this
  rw [isFileAt]
  cases hl : n.lookup q with
  | none => rfl
  | some m => rw [hl] at this; cases m <;> simp_all

/-! ### Error taxonomy and oracle for OS primitives -/

/-- Classification of an OS-level primitive failure, as `move_or_copy`
distinguishes them: `crossesDevices` is `io::ErrorKind::CrossesDevices`
(EXDEV), `notSupported` is a raw `ENOTSUP`, and `other` is any other raw OS
error code (e.g. EACCES for permission denied, ENOENT for not-found). -/
inductive PrimErr where
  | crossesDevices
  | notSupported
  | other (code : Nat)
deriving Repr, DecidableEq

/-- Oracle for the outcome the OS reports for one primitive attempt
(`fs::rename` or `reflink`) when its operands are present and valid. -/
inductive PrimOutcome where
  | ok
  | err (e : PrimErr)
deriving Repr, DecidableEq

/-- `libc::ENOENT`. -/
def enoent : Nat := 2

/-- The transfer mode (`MoveOrCopy` in src/lib.rs). -/
inductive MoveOrCopy where
  | move
  | copy
deriving Repr, DecidableEq

/-- The errors the engine reports (each constructor corresponds to one
`ensure!`/`bail!` site or propagated OS error in the source). -/
inductive Err where
  | srcNotFound (p : Path)
  | srcNotFile (p : Path)
  | cannotDeriveName (p : Path)
  | destNotAFile (p : Path)
  | destExistsNoForce (p : Path)
  | srcNotDir (p : Path)
  | destNotADir (p : Path)
  | osErr (e : PrimErr)
  | ioFail (p : Path)
  | stripFail (p : Path)
  | invalidSource (p : Path)
  | multiSrcDestNotDir
  | mixedKinds
deriving Repr, DecidableEq

/-- A destination argument: its components plus whether its textual form
ends in a path separator (`dest.to_string_lossy().ends_with('/')`). -/
structure DestInput where
  path : Path
  trailingSep : Bool
deriving Repr, DecidableEq

/-! ### `fs::rename` -/

/-- `fs::rename` restricted to regular-file sources: replaces the
destination atomically.  POSIX specifies that a rename in which both
arguments resolve to the same existing file succeeds and does nothing. -/
def Node.renameFile (fs : Node) (src dest : Path) : Option Node :=
  match contentAt fs src with
  | none => none
  | some c =>
    if src = dest then some fs
    else
      match fs.writeFile dest c with
      | none => none
      | some fs1 => fs1.removeFile src

/-! ### The buffered-copy loop -/

/-- The fallback copy buffer size (`vec![0u8; 1024 * 1024]`). -/
def bufLen : Nat := 1024 * 1024

/-- The successive chunks read by the `buffered_copy` loop. -/
def readChunks (c : Content) : List Content :=
  if h : c = [] then []
  else c.take bufLen :: readChunks (c.drop bufLen)
termination_by c.length
decreasing_by
  simp only [List.length_drop, bufLen]
  have : 0 < c.length := List.length_pos.mpr h
  omega

theorem readChunks_flatten (c : Content) : (readChunks c).flatten = c := by
  generalize hn : c.length = n
  induction n using Nat.strong_induction_on generalizing c with
  | _ n ih =>
    by_cases h : c = []
    · subst h; simp [readChunks]
    · rw [readChunks, dif_neg h]
      simp only [List.flatten_cons]
      rw [ih ((c.drop bufLen).length) ?_ _ rfl]
      · exact List.take_append_drop bufLen c
      · subst hn
        simp only [List.length_drop, bufLen]
        have : 0 < c.length := List.length_pos.mpr h
        omega

/-! ### Path rendering and the merge sort order -/

/-- The textual form of a path (what `to_string_lossy` yields for the
joined components). -/
def render (p : Path) : String := String.intercalate "/" p

/-- Lexicographic comparison of character lists: Rust string comparison is
lexicographic on the underlying bytes, which for the rendered paths is the
character-by-character comparison of their text. -/
def charListLe : List Char → List Char → Bool
  | [], _ => true
  | _ :: _, [] => false
  | c :: cs, d :: ds => if c = d then charListLe cs ds else decide (c < d)

def pathLe (a b : Path) : Prop :=
  charListLe (render a).data (render b).data = true

instance : DecidableRel pathLe := fun a b =>
  inferInstanceAs (Decidable (_ = true))

theorem charListLe_total :
    ∀ a b, charListLe a b = true ∨ charListLe b a = true := by
  intro a
  induction a with
  | nil => intro b; exact Or.inl rfl
  | cons c cs ih =>
    intro b
    cases b with
    | nil => exact Or.inr rfl
    | cons d ds =>
      by_cases hcd : c = d
      · subst hcd
        rcases ih ds with h | h
        · exact Or.inl (by rw [charListLe, if_pos rfl]; exact h)
        · exact Or.inr (by rw [charListLe, if_pos rfl]; exact h)
      · rcases lt_trichotomy c d with h | h | h
        · exact Or.inl (by rw [charListLe, if_neg hcd]; exact decide_eq_true h)
        · exact absurd h hcd
        · refine Or.inr ?_
          rw [charListLe, if_neg (Ne.symm hcd)]
          exact decide_eq_true h

theorem charListLe_trans :
    ∀ a b c, charListLe a b = true → charListLe b c = true →
      charListLe a c = true := by
  intro a
  induction a with
  | nil => intro b c _ _; rfl
  | cons x xs ih =>
    intro b c hab hbc
    cases b with
    | nil => simp [charListLe] at hab
    | cons y ys =>
      cases c with
      | nil => simp [charListLe] at hbc
      | cons z zs =>
        rw [charListLe] at hab hbc ⊢
        by_cases hxy : x = y
        · subst hxy
          rw [if_pos rfl] at hab
          by_cases hyz : x = z
          · subst hyz
            rw [if_pos rfl] at hbc ⊢
            exact ih ys zs hab hbc
          · rw [if_neg hyz] at hbc ⊢
            exact hbc
        · rw [if_neg hxy] at hab
          have hxy2 : x < y := of_decide_eq_true hab
          by_cases hyz : y = z
          · subst hyz
            rw [if_neg hxy]
            exact decide_eq_true hxy2
          · rw [if_neg hyz] at hbc
            have hyz2 : y < z := of_decide_eq_true hbc
            have hxz : x < z := lt_trans hxy2 hyz2
            rw [if_neg (ne_of_lt hxz)]
            exact decide_eq_true hxz

theorem charListLe_antisymm :
    ∀ a b, charListLe a b = true → charListLe b a = true → a = b := by
  intro a
  induction a with
  | nil =>
    intro b _ hba
    cases b with
    | nil => rfl
    | cons d ds => simp [charListLe] at hba
  | cons c cs ih =>
    intro b hab hba
    cases b with
    | nil => simp [charListLe] at hab
    | cons d ds =>
      rw [charListLe] at hab hba
      by_cases hcd : c = d
      · subst hcd
        rw [if_pos rfl] at hab hba
        rw [ih ds hab hba]
      · rw [if_neg hcd] at hab
        rw [if_neg (Ne.symm hcd)] at hba
        have h1 : c < d := of_decide_eq_true hab
        have h2 : d < c := of_decide_eq_true hba
        exact absurd h1 (lt_asymm h2)

instance : IsTotal Path pathLe := ⟨fun a b => charListLe_total _ _⟩

instance : IsTrans Path pathLe :=
  ⟨fun _ _ _ hab hbc => charListLe_trans _ _ _ hab hbc⟩

/-- Antisymmetry of the sort order up to the rendered text. -/
theorem pathLe_antisymm {a b : Path} (hab : pathLe a b) (hba : pathLe b a) :
    render a = render b := by
  have := charListLe_antisymm _ _ hab hba
  cases ha : render a with
  | mk la =>
    cases hb : render b with
    | mk lb =>
      rw [ha, hb] at this
      simp at this
      rw [this]

/-- `files.sort_by_key(|p| p.to_string_lossy().to_string())` (src/dir.rs):
a stable sort of the collected file paths by their textual form. -/
def sortFiles (l : List Path) : List Path := List.insertionSort pathLe l

/-- `Path::strip_prefix`. -/
def stripPre : Path → Path → Option Path
  | [], p => some p
  | _ :: _, [] => none
  | a :: pr, b :: p => if a = b then stripPre pr p else none

theorem stripPre_append (p q : Path) : stripPre p (p ++ q) = some q := by
  induction p with
  | nil => rfl
  | cons a pr ih => simp [stripPre, ih]

/-! ### `ensure_dest` (src/file.rs) -/

/-- `ensure_dest`: validate the source, resolve the final destination path
(joining the source file name when the destination is an existing directory
or a nonexistent path written with a trailing separator), and enforce the
overwrite policy (`force`). -/
def ensureDest (fs : Node) (src : Path) (dest : DestInput) (force : Bool) :
    Except Err Path :=
  if ¬ existsAt fs src then .error (.srcNotFound src)
  else if ¬ isFileAt fs src then .error (.srcNotFile src)
  else
    let resolved : Except Err Path :=
      if isDirAt fs dest.path || (!existsAt fs dest.path && dest.trailingSep) then
        match src.getLast? with
        | some name => .ok (dest.path ++ [name])
        | none => .error (.cannotDeriveName src)
      else .ok dest.path
    match resolved with
    | .error e => .error e
    | .ok d =>
      if existsAt fs d then
        if ¬ isFileAt fs d then .error (.destNotAFile d)
        else if ¬ force then .error (.destExistsNoForce d)
        else .ok d
      else .ok d

/-! ### `move_or_copy` (src/file.rs) -/

/-- Which rung of the strategy ladder completed the transfer. -/
inductive Strategy where
  | primitive
  | fallback
deriving Repr, DecidableEq

/-- Result of one single-file transfer. -/
inductive MocRes where
  | ok (dest : Path) (strat : Strategy)
  | error (e : Err)
deriving Repr, DecidableEq

/-- `buffered_copy` followed by the Move-mode source deletion: stream the
source through `bufLen`-sized chunks into a freshly created destination
file, then remove the source when moving. -/
def fallbackCopy (fs : Node) (src d : Path) (moc : MoveOrCopy) : Node × MocRes :=
  match contentAt fs src with
  | none => (fs, .error (.ioFail src))
  | some c =>
    match fs.writeFile d (readChunks c).flatten with
    | none => (fs, .error (.ioFail d))
    | some fs1 =>
      match moc with
      | .copy => (fs1, .ok d .fallback)
      | .move =>
        match fs1.removeFile src with
        | some fs2 => (fs2, .ok d .fallback)
        | none => (fs1, .error (.ioFail src))

/-- `move_or_copy`: resolve the destination, create its parent directories,
attempt the cheap OS primitive (`fs::rename` in Move mode; in Copy mode
remove an existing destination file first, then `reflink`), fall back to
`fallbackCopy` when the primitive error is classified cross-device or
unsupported, and propagate any other primitive error unchanged.  The first
component of the result is the filesystem after the call (also on error:
partial effects persist). -/
def moveOrCopy (fs0 : Node) (src : Path) (dest : DestInput) (moc : MoveOrCopy)
    (force : Bool) (prim : PrimOutcome) : Node × MocRes :=
  match ensureDest fs0 src dest force with
  | .error e => (fs0, .error e)
  | .ok d =>
    let cda := fs0.createDirAll d.dropLast
    if cda.2 = false then (cda.1, .error (.ioFail d.dropLast))
    else
      let fs1 := cda.1
      match moc with
      | .move =>
        match prim with
        | .ok =>
          match fs1.renameFile src d with
          | some fs2 => (fs2, .ok d .primitive)
          | none => (fs1, .error (.ioFail src))
        | .err .crossesDevices => fallbackCopy fs1 src d .move
        | .err .notSupported => fallbackCopy fs1 src d .move
        | .err (.other c) => (fs1, .error (.osErr (.other c)))
      | .copy =>
        let rem : Node × Bool :=
          if existsAt fs1 d then
            match fs1.removeFile d with
            | some f => (f, true)
            | none => (fs1, false)
          else (fs1, true)
        if rem.2 = false then (rem.1, .error (.ioFail d))
        else
          let fs2 := rem.1
          if ¬ existsAt fs2 src then (fs2, .error (.osErr (.other enoent)))
          else
            match prim with
            | .ok =>
              match contentAt fs2 src with
              | some c =>
                match fs2.writeFile d c with
                | some fs3 => (fs3, .ok d .primitive)
                | none => (fs2, .error (.ioFail d))
              | none => (fs2, .error (.osErr (.other enoent)))
            | .err .crossesDevices => fallbackCopy fs2 src d .copy
            | .err .notSupported => fallbackCopy fs2 src d .copy
            | .err (.other c) => (fs2, .error (.osErr (.other c)))

/-! ### Inversion helpers for the status predicates -/

theorem contentAt_eq_some {fs : Node} {p : Path} {c : Content} :
    contentAt fs p = some c ↔ fs.lookup p = some (.file c) := by
  rw [contentAt]
  cases hl : fs.lookup p with
  | none => simp
  | some m => cases m <;> simp_all

theorem isDirAt_iff {fs : Node} {p : Path} :
    isDirAt fs p = true ↔ ∃ es, fs.lookup p = some (.dir es) := by
  rw [isDirAt]
  cases hl : fs.lookup p with
  | none => simp
  | some m => cases m <;> simp_all

theorem isFileAt_iff {fs : Node} {p : Path} :
    isFileAt fs p = true ↔ ∃ c, fs.lookup p = some (.file c) := by
  rw [isFileAt]
  cases hl : fs.lookup p with
  | none => simp
  | some m => cases m <;> simp_all

theorem existsAt_false {fs : Node} {p : Path} :
    existsAt fs p = false ↔ fs.lookup p = none := by
  rw [existsAt]
  cases fs.lookup p <;> simp

theorem dropLast_pre (p : Path) : p.dropLast <+: p := by
  rcases List.eq_nil_or_concat p with rfl | ⟨q, k, rfl⟩
  · exact ⟨[], rfl⟩
  · rw [List.concat_eq_append, List.dropLast_concat]
    exact pre_append q [k]

theorem not_self_pre_dropLast {d : Path} (h : d ≠ []) : ¬ d <+: d.dropLast := by
  intro hp
  have h1 := hp.length_le
  rw [List.length_dropLast] at h1
  have h2 : 0 < d.length := List.length_pos.mpr h
  omega

/-! ### `ensure_dest` inversion lemmas -/

theorem ensureDest_srcFile {fs : Node} {src : Path} {dest : DestInput}
    {force : Bool} {d : Path} (h : ensureDest fs src dest force = .ok d) :
    isFileAt fs src = true := by
  unfold ensureDest at h
  by_cases h1 : existsAt fs src = true
  · by_cases h2 : isFileAt fs src = true
    · exact h2
    · simp [h1, h2] at h
  · simp [h1] at h

theorem ensureDest_destPolicy {fs : Node} {src : Path} {dest : DestInput}
    {force : Bool} {d : Path} (h : ensureDest fs src dest force = .ok d) :
    fs.lookup d = none ∨ (isFileAt fs d = true ∧ force = true) := by
  unfold ensureDest at h
  by_cases h1 : existsAt fs src = true
  swap
  · simp [h1] at h
  by_cases h2 : isFileAt fs src = true
  swap
  · simp [h1, h2] at h
  simp only [h1, h2, not_true_eq_false, if_false] at h
  set r : Except Err Path :=
    (if isDirAt fs dest.path || (!existsAt fs dest.path && dest.trailingSep) then
      match src.getLast? with
      | some name => .ok (dest.path ++ [name])
      | none => .error (.cannotDeriveName src)
    else .ok dest.path) with hr
  cases hres : r with
  | error e => rw [hres] at h; simp at h
  | ok d0 =>
    rw [hres] at h
    simp only at h
    by_cases h3 : existsAt fs d0 = true
    · by_cases h4 : isFileAt fs d0 = true
      · by_cases h5 : force = true
        · simp only [h3, h4, h5, not_true_eq_false, if_false, if_true] at h
          cases h
          exact Or.inr ⟨h4, h5⟩
        · simp [h3, h4, h5] at h
      · simp [h3, h4] at h
    · simp only [h3, if_false] at h
      cases h
      exact Or.inl (existsAt_false.mp (by simpa using h3))

/-- The resolution rule of `ensure_dest`: when the destination is an
existing directory, or absent with a trailing separator, the source file
name is appended; otherwise the destination is used verbatim. -/
theorem ensureDest_resolution {fs : Node} {src : Path} {dest : DestInput}
    {force : Bool} {d : Path} (h : ensureDest fs src dest force = .ok d) :
    (if isDirAt fs dest.path || (!existsAt fs dest.path && dest.trailingSep) then
      ∃ name, src.getLast? = some name ∧ d = dest.path ++ [name]
    else d = dest.path) := by
  unfold ensureDest at h
  by_cases h1 : existsAt fs src = true
  swap
  · simp [h1] at h
  by_cases h2 : isFileAt fs src = true
  swap
  · simp [h1, h2] at h
  simp only [h1, h2, not_true_eq_false, if_false] at h
  by_cases hc : (isDirAt fs dest.path || (!existsAt fs dest.path && dest.trailingSep)) = true
  · rw [if_pos hc]
    rw [if_pos hc] at h
    cases hname : src.getLast? with
    | none => rw [hname] at h; simp at h
    | some name =>
      rw [hname] at h
      simp only at h
      refine ⟨name, rfl, ?_⟩
      by_cases h3 : existsAt fs (dest.path ++ [name]) = true
      · by_cases h4 : isFileAt fs (dest.path ++ [name]) = true
        · by_cases h5 : force = true
          · simp only [h3, h4, h5, not_true_eq_false, if_false, if_true] at h
            cases h
            rfl
          · simp [h3, h4, h5] at h
        · simp [h3, h4] at h
      · simp only [h3, if_false] at h
        cases h
        rfl
  · rw [if_neg hc]
    rw [if_neg hc] at h
    simp only at h
    by_cases h3 : existsAt fs dest.path = true
    · by_cases h4 : isFileAt fs dest.path = true
      · by_cases h5 : force = true
        · simp only [h3, h4, h5, not_true_eq_false, if_false, if_true] at h
          cases h
          rfl
        · simp [h3, h4, h5] at h
      · simp [h3, h4] at h
    · simp only [h3, if_false] at h
      cases h
      rfl

/-! ### Well-formed trees (distinct entry names, as on a real filesystem) -/

mutual

/-- Entry names are distinct at every directory level. -/
def wfEntries : Entries → Bool
  | [] => true
  | (k, n) :: rest => (findEntry rest k).isNone && wfN n && wfEntries rest

/-- Well-formedness of a node. -/
def wfN : Node → Bool
  | .dir es => wfEntries es
  | .file _ => true
  | .special => true

end

theorem wf_findEntry {es : Entries} {k : String} {m : Node}
    (hwf : wfEntries es = true) (h : findEntry es k = some m) : wfN m = true := by
  induction es with
  | nil => simp [findEntry] at h
  | cons e rest ih =>
    obtain ⟨k0, n0⟩ := e
    rw [wfEntries] at hwf
    simp only [Bool.and_eq_true] at hwf
    rw [findEntry] at h
    by_cases hk : k0 = k
    · rw [if_pos hk] at h
      cases h
      exact hwf.1.2
    · rw [if_neg hk] at h
      exact ih hwf.2 h

theorem wf_setEntry {es : Entries} {k : String} {n : Node}
    (hwf : wfEntries es = true) (hn : wfN n = true) :
    wfEntries (setEntry es k n) = true := by
  induction es with
  | nil =>
    rw [setEntry, wfEntries]
    simp [findEntry, hn, wfEntries]
  | cons e rest ih =>
    obtain ⟨k0, n0⟩ := e
    rw [wfEntries] at hwf
    simp only [Bool.and_eq_true] at hwf
    rw [setEntry]
    by_cases hk : k0 = k
    · rw [if_pos hk]
      rw [wfEntries]
      simp only [Bool.and_eq_true]
      exact ⟨⟨hk ▸ hwf.1.1, hn⟩, hwf.2⟩
    · rw [if_neg hk]
      rw [wfEntries]
      simp only [Bool.and_eq_true]
      refine ⟨⟨?_, hwf.1.2⟩, ih hwf.2⟩
      rw [findEntry_setEntry_other rest k k0 n hk]
      exact hwf.1.1

theorem wf_removeEntry {es : Entries} {k : String}
    (hwf : wfEntries es = true) : wfEntries (removeEntry es k) = true := by
  induction es with
  | nil => rfl
  | cons e rest ih =>
    obtain ⟨k0, n0⟩ := e
    rw [wfEntries] at hwf
    simp only [Bool.and_eq_true] at hwf
    rw [removeEntry]
    by_cases hk : k0 = k
    · rw [if_pos hk]
      exact ih hwf.2
    · rw [if_neg hk]
      rw [wfEntries]
      simp only [Bool.and_eq_true]
      refine ⟨⟨?_, hwf.1.2⟩, ih hwf.2⟩
      rw [findEntry_removeEntry_other rest k k0 hk]
      exact hwf.1.1

theorem editAt_wf {act : Entries → String → Option Entries}
    (hact : ∀ es k es', act es k = some es' →
      wfEntries es = true → wfEntries es' = true) :
    ∀ {n n' : Node} {p : Path}, Node.editAt act n p = some n' →
      wfN n = true → wfN n' = true := by
  intro n n' p
  induction p generalizing n n' with
  | nil => intro h; cases n <;> simp [Node.editAt] at h
  | cons k rest ih =>
    intro h hwf
    cases n with
    | file c => simp [Node.editAt] at h
    | special => simp [Node.editAt] at h
    | dir es =>
      rw [wfN] at hwf
      cases rest with
      | nil =>
        simp only [Node.editAt] at h
        cases hae : act es k with
        | none => rw [hae] at h; simp at h
        | some es' =>
          rw [hae] at h
          simp only [Option.map_some', Option.some.injEq] at h
          subst h
          exact hact es k es' hae hwf
      | cons k2 ks =>
        simp only [Node.editAt] at h
        cases hfe : findEntry es k with
        | none => rw [hfe] at h; simp at h
        | some m =>
          rw [hfe] at h
          dsimp only at h
          cases hrec : Node.editAt act m (k2 :: ks) with
          | none => rw [hrec] at h; simp at h
          | some m' =>
            rw [hrec] at h
            simp only [Option.map_some', Option.some.injEq] at h
            subst h
            show wfEntries (setEntry es k m') = true
            exact wf_setEntry hwf (ih hrec (wf_findEntry hwf hfe))

theorem writeFile_wf {n n' : Node} {p : Path} {c : Content}
    (h : n.writeFile p c = some n') (hwf : wfN n = true) : wfN n' = true := by
  refine editAt_wf ?_ h hwf
  intro es k es' ha hes
  cases hfe : findEntry es k with
  | none =>
    rw [hfe] at ha
    simp only [Option.some.injEq] at ha
    rw [← ha]
    exact wf_setEntry hes rfl
  | some m =>
    cases m with
    | file c0 =>
      rw [hfe] at ha
      simp only [Option.some.injEq] at ha
      rw [← ha]
      exact wf_setEntry hes rfl
    | dir es0 => rw [hfe] at ha; simp at ha
    | special => rw [hfe] at ha; simp at ha

theorem removeFile_wf {n n' : Node} {p : Path}
    (h : n.removeFile p = some n') (hwf : wfN n = true) : wfN n' = true := by
  refine editAt_wf ?_ h hwf
  intro es k es' ha hes
  cases hfe : findEntry es k with
  | none => rw [hfe] at ha; simp at ha
  | some m =>
    cases m with
    | file c0 =>
      rw [hfe] at ha
      simp only [Option.some.injEq] at ha
      rw [← ha]
      exact wf_removeEntry hes
    | dir es0 => rw [hfe] at ha; simp at ha
    | special => rw [hfe] at ha; simp at ha

theorem removeDirAt_wf {n n' : Node} {p : Path}
    (h : n.removeDirAt p = some n') (hwf : wfN n = true) : wfN n' = true := by
  refine editAt_wf ?_ h hwf
  intro es k es' ha hes
  cases hfe : findEntry es k with
  | none => rw [hfe] at ha; simp at ha
  | some m =>
    cases m with
    | dir es0 =>
      rw [hfe] at ha
      simp only [Option.some.injEq] at ha
      rw [← ha]
      exact wf_removeEntry hes
    | file c0 => rw [hfe] at ha; simp at ha
    | special => rw [hfe] at ha; simp at ha

theorem createDirAll_wf (n : Node) (p : Path) (hwf : wfN n = true) :
    wfN (n.createDirAll p).1 = true := by
  induction p generalizing n with
  | nil => cases n <;> simpa [Node.createDirAll]
  | cons k ks ih =>
    cases n with
    | file c => simpa [Node.createDirAll]
    | special => simpa [Node.createDirAll]
    | dir es =>
      rw [wfN] at hwf
      cases hfe : findEntry es k with
      | some m =>
        simp only [Node.createDirAll, hfe]
        exact wf_setEntry hwf (ih m (wf_findEntry hwf hfe))
      | none =>
        simp only [Node.createDirAll, hfe]
        exact wf_setEntry hwf (ih (.dir []) rfl)

/-! ### The successful-transfer step lemma -/

/-- Bool test of whether a primitive outcome is success or a recoverable
(classified) failure. -/
def primRecoverable : PrimOutcome → Bool
  | .ok => true
  | .err .crossesDevices => true
  | .err .notSupported => true
  | .err (.other _) => false

/-- A successful single-file transfer whose resolved destination is absent
or an existing regular file: both the primitive path and the
buffered-fallback path move the bytes of `f` to `d`, remove the source
exactly in Move mode, touch nothing whose path is not under `d` (nor under
`f` in Move mode), never destroy a directory, and never create a file
anywhere but `d`. -/
theorem moveOrCopy_ok {fs : Node} {f : Path} {dest : DestInput}
    {moc : MoveOrCopy} {force : Bool} {prim : PrimOutcome} {d : Path} {c : Content}
    (hres : ensureDest fs f dest force = .ok d)
    (hsf : contentAt fs f = some c)
    (hf0 : f ≠ []) (hd0 : d ≠ [])
    (hdest : fs.lookup d = none ∨ ∃ c0, fs.lookup d = some (.file c0))
    (hchain : ∀ q, q <+: d.dropLast → dirOrAbsentB fs q = true)
    (hfd1 : ¬ f <+: d) (hdf1 : ¬ d <+: f)
    (hprim : primRecoverable prim = true) :
    ∃ fs' strat, moveOrCopy fs f dest moc force prim = (fs', .ok d strat) ∧
      (strat = .primitive ↔ prim = .ok) ∧
      isDirAt fs' d.dropLast = true ∧
      contentAt fs' d = some c ∧
      (moc = .move → fs'.lookup f = none) ∧
      (moc = .copy → contentAt fs' f = some c) ∧
      (∀ q, ¬ q <+: d → (moc = .move → ¬ q <+: f) → fs'.lookup q = fs.lookup q) ∧
      (∀ q, isDirAt fs q = true → isDirAt fs' q = true) ∧
      (∀ q, isFileAt fs' q = true → isFileAt fs q = true ∨ q = d) ∧
      (∀ q, isSpecialAt fs' q = true → isSpecialAt fs q = true) ∧
      (wfN fs = true → wfN fs' = true) := by
  have hlf : fs.lookup f = some (.file c) := contentAt_eq_some.mp hsf
  have hfd : f ≠ d := fun he => hfd1 (by rw [he])
  -- the parent-directory creation succeeds; its effects
  have hcda_ok : (fs.createDirAll d.dropLast).2 = true :=
    (createDirAll_ok_iff _ _).mpr (fun q hq => hchain q hq)
  set fs1 := (fs.createDirAll d.dropLast).1 with hfs1
  have hframe1 : ∀ q, ¬ q <+: d.dropLast → fs1.lookup q = fs.lookup q :=
    fun q hq => createDirAll_frame fs _ q hq
  have hf_nchain : ¬ f <+: d.dropLast := fun hp => hfd1 (hp.trans (dropLast_pre d))
  have hd_nchain : ¬ d <+: d.dropLast := not_self_pre_dropLast hd0
  have hlf1 : fs1.lookup f = some (.file c) := by
    rw [hframe1 f hf_nchain]; exact hlf
  have hd1 : fs1.lookup d = none ∨ ∃ c0, fs1.lookup d = some (.file c0) := by
    rw [hframe1 d hd_nchain]; exact hdest
  have hparent : isDirAt fs1 d.dropLast = true :=
    createDirAll_dirs fs _ hcda_ok _ ⟨[], by simp⟩
  obtain ⟨esP, hesP⟩ := isDirAt_iff.mp hparent
  have hsplit : d.dropLast ++ [d.getLast hd0] = d := List.dropLast_append_getLast hd0
  -- writing the destination file succeeds (over an absent or file target)
  have hwriteAt : ∀ (g : Node) c', isDirAt g d.dropLast = true →
      (g.lookup d = none ∨ ∃ c0, g.lookup d = some (.file c0)) →
      ∃ g', g.writeFile d c' = some g' := by
    intro g c' hgP hgd
    obtain ⟨esG, hesG⟩ := isDirAt_iff.mp hgP
    have hnd : isDirAt g d = false := by
      rw [isDirAt]
      rcases hgd with h | ⟨c0, h⟩ <;> rw [h]
    have hns : isSpecialAt g d = false := by
      rw [isSpecialAt]
      rcases hgd with h | ⟨c0, h⟩ <;> rw [h]
    obtain ⟨n', hn'⟩ := writeFile_exists c' hesG
      (by rw [hsplit]; exact hnd) (by rw [hsplit]; exact hns)
    exact ⟨n', by rw [← hsplit]; exact hn'⟩
  -- Move-mode chain: write the destination, then remove the source
  obtain ⟨m2, hwM⟩ := hwriteAt fs1 c hparent hd1
  have hm2d : m2.lookup d = some (.file c) := writeFile_self hwM
  have hframeM2 : ∀ q, ¬ q <+: d → m2.lookup q = fs1.lookup q := writeFile_frame hwM
  have hlfM2 : m2.lookup f = some (.file c) := by
    rw [hframeM2 f hfd1]; exact hlf1
  obtain ⟨m3, hrM⟩ := removeFile_exists hf0 hlfM2
  have hrM_self : m3.lookup f = none := removeFile_self hrM
  have hframeM3 : ∀ q, ¬ q <+: f → m3.lookup q = m2.lookup q := removeFile_frame hrM
  have hm3d : m3.lookup d = some (.file c) := by
    rw [hframeM3 d hdf1]; exact hm2d
  have conclM : contentAt m3 d = some c ∧
      (∀ q, ¬ q <+: d → ¬ q <+: f → m3.lookup q = fs.lookup q) ∧
      (∀ q, isDirAt fs q = true → isDirAt m3 q = true) ∧
      (∀ q, isFileAt m3 q = true → isFileAt fs q = true ∨ q = d) ∧
      (∀ q, isSpecialAt m3 q = true → isSpecialAt fs q = true) := by
    refine ⟨contentAt_eq_some.mpr hm3d, ?_, ?_, ?_, ?_⟩
    · intro q hqd hqf
      rw [hframeM3 q hqf, hframeM2 q hqd,
        hframe1 q (fun hp => hqd (hp.trans (dropLast_pre d)))]
    · intro q hq
      exact removeFile_dirMono hrM q (writeFile_dirMono hwM q
        (createDirAll_dirMono fs _ hcda_ok q hq))
    · intro q hq
      rcases writeFile_noNewFile hwM q (removeFile_noNewFile hrM q hq) with h1 | h1
      · exact Or.inl (createDirAll_noNewFile fs _ hcda_ok q h1)
      · exact Or.inr h1
    · intro q hq
      exact createDirAll_noNewSpecial fs _ hcda_ok q
        (writeFile_noNewSpecial hwM q (removeFile_noNewSpecial hrM q hq))
  -- Copy-mode chain: remove an existing destination file, then write
  have hremPack : ∃ a1, (if existsAt fs1 d then
      match fs1.removeFile d with
      | some f => (f, true)
      | none => (fs1, false)
    else (fs1, true)) = (a1, true) ∧
      a1.lookup d = none ∧
      (∀ q, ¬ q <+: d → a1.lookup q = fs1.lookup q) ∧
      (∀ q, isDirAt fs1 q = true → isDirAt a1 q = true) ∧
      (∀ q, isFileAt a1 q = true → isFileAt fs1 q = true) ∧
      (∀ q, isSpecialAt a1 q = true → isSpecialAt fs1 q = true) ∧
      (wfN fs1 = true → wfN a1 = true) := by
    rcases hd1 with h | ⟨c0, h⟩
    · refine ⟨fs1, ?_, h, fun q _ => rfl, fun q hq => hq, fun q hq => hq,
        fun q hq => hq, fun hq => hq⟩
      rw [if_neg]
      rw [existsAt, h]
      simp
    · obtain ⟨a1, ha1⟩ := removeFile_exists hd0 h
      have hex : existsAt fs1 d = true := by rw [existsAt, h]; rfl
      refine ⟨a1, ?_, removeFile_self ha1, removeFile_frame ha1,
        removeFile_dirMono ha1, removeFile_noNewFile ha1, removeFile_noNewSpecial ha1,
        removeFile_wf ha1⟩
      rw [if_pos hex, ha1]
  obtain ⟨a1, hremEq, ha1d, hframeA1, hdirA1, hfileA1, hspecA1, hwfA1⟩ := hremPack
  have hlfA1 : a1.lookup f = some (.file c) := by
    rw [hframeA1 f hfd1]; exact hlf1
  have hesPA1 : isDirAt a1 d.dropLast = true := hdirA1 _ hparent
  obtain ⟨a2, hwC⟩ := hwriteAt a1 c hesPA1 (Or.inl ha1d)
  have ha2d : a2.lookup d = some (.file c) := writeFile_self hwC
  have hframeA2 : ∀ q, ¬ q <+: d → a2.lookup q = a1.lookup q := writeFile_frame hwC
  have hlfA2 : a2.lookup f = some (.file c) := by
    rw [hframeA2 f hfd1]; exact hlfA1
  have conclC : contentAt a2 d = some c ∧ contentAt a2 f = some c ∧
      (∀ q, ¬ q <+: d → a2.lookup q = fs.lookup q) ∧
      (∀ q, isDirAt fs q = true → isDirAt a2 q = true) ∧
      (∀ q, isFileAt a2 q = true → isFileAt fs q = true ∨ q = d) ∧
      (∀ q, isSpecialAt a2 q = true → isSpecialAt fs q = true) := by
    refine ⟨contentAt_eq_some.mpr ha2d, contentAt_eq_some.mpr hlfA2, ?_, ?_, ?_, ?_⟩
    · intro q hqd
      rw [hframeA2 q hqd, hframeA1 q hqd,
        hframe1 q (fun hp => hqd (hp.trans (dropLast_pre d)))]
    · intro q hq
      exact writeFile_dirMono hwC q (hdirA1 q (createDirAll_dirMono fs _ hcda_ok q hq))
    · intro q hq
      rcases writeFile_noNewFile hwC q hq with h1 | h1
      · exact Or.inl (createDirAll_noNewFile fs _ hcda_ok q (hfileA1 q h1))
      · exact Or.inr h1
    · intro q hq
      exact createDirAll_noNewSpecial fs _ hcda_ok q
        (hspecA1 q (writeFile_noNewSpecial hwC q hq))
  -- evaluate `moveOrCopy` on each path
  have hcda_ne : ¬ ((fs.createDirAll d.dropLast).2 = false) := by
    simp [hcda_ok]
  have hrn : fs1.renameFile f d = some m3 := by
    rw [Node.renameFile, contentAt_eq_some.mpr hlf1]
    dsimp only
    rw [if_neg hfd, hwM]
    dsimp only
    exact hrM
  have hfbm : fallbackCopy fs1 f d .move = (m3, .ok d .fallback) := by
    rw [fallbackCopy, contentAt_eq_some.mpr hlf1]
    dsimp only
    rw [readChunks_flatten, hwM]
    dsimp only
    rw [hrM]
  have hfbc : fallbackCopy a1 f d .copy = (a2, .ok d .fallback) := by
    rw [fallbackCopy, contentAt_eq_some.mpr hlfA1]
    dsimp only
    rw [readChunks_flatten, hwC]
  have hexA1 : ¬ (¬ existsAt a1 f = true) := by
    rw [existsAt, hlfA1]
    simp
  have hpar3 : isDirAt m3 (List.dropLast d) = true :=
    removeFile_dirMono hrM _ (writeFile_dirMono hwM _ hparent)
  have hparA2 : isDirAt a2 (List.dropLast d) = true :=
    writeFile_dirMono hwC _ (hdirA1 _ hparent)
  cases moc with
  | move =>
    have cm : contentAt m3 d = some c ∧
        (MoveOrCopy.move = .move → m3.lookup f = none) ∧
        (MoveOrCopy.move = .copy → contentAt m3 f = some c) ∧
        (∀ q, ¬ q <+: d → (MoveOrCopy.move = .move → ¬ q <+: f) →
          m3.lookup q = fs.lookup q) ∧
        (∀ q, isDirAt fs q = true → isDirAt m3 q = true) ∧
        (∀ q, isFileAt m3 q = true → isFileAt fs q = true ∨ q = d) ∧
        (∀ q, isSpecialAt m3 q = true → isSpecialAt fs q = true) ∧
        (wfN fs = true → wfN m3 = true) := by
      refine ⟨conclM.1, fun _ => hrM_self, ?_, ?_,
        conclM.2.2.1, conclM.2.2.2.1, conclM.2.2.2.2,
        fun hw => removeFile_wf hrM (writeFile_wf hwM (createDirAll_wf fs _ hw))⟩
      · intro h
        exact absurd h (by decide)
      · intro q h1 h2
        exact conclM.2.1 q h1 (h2 rfl)
    cases prim with
    | ok =>
      have heval : moveOrCopy fs f dest .move force .ok = (m3, .ok d .primitive) := by
        rw [moveOrCopy, hres]
        dsimp only
        rw [if_neg hcda_ne, hrn]
      exact ⟨m3, .primitive, heval, by decide, hpar3, cm⟩
    | err e =>
      cases e with
      | crossesDevices =>
        have heval : moveOrCopy fs f dest .move force (.err .crossesDevices) =
            (m3, .ok d .fallback) := by
          rw [moveOrCopy, hres]
          dsimp only
          rw [if_neg hcda_ne]
          exact hfbm
        exact ⟨m3, .fallback, heval, by decide, hpar3, cm⟩
      | notSupported =>
        have heval : moveOrCopy fs f dest .move force (.err .notSupported) =
            (m3, .ok d .fallback) := by
          rw [moveOrCopy, hres]
          dsimp only
          rw [if_neg hcda_ne]
          exact hfbm
        exact ⟨m3, .fallback, heval, by decide, hpar3, cm⟩
      | other code => simp [primRecoverable] at hprim
  | copy =>
    have cc : contentAt a2 d = some c ∧
        (MoveOrCopy.copy = .move → a2.lookup f = none) ∧
        (MoveOrCopy.copy = .copy → contentAt a2 f = some c) ∧
        (∀ q, ¬ q <+: d → (MoveOrCopy.copy = .move → ¬ q <+: f) →
          a2.lookup q = fs.lookup q) ∧
        (∀ q, isDirAt fs q = true → isDirAt a2 q = true) ∧
        (∀ q, isFileAt a2 q = true → isFileAt fs q = true ∨ q = d) ∧
        (∀ q, isSpecialAt a2 q = true → isSpecialAt fs q = true) ∧
        (wfN fs = true → wfN a2 = true) := by
      refine ⟨conclC.1, ?_, fun _ => conclC.2.1, ?_,
        conclC.2.2.2.1, conclC.2.2.2.2.1, conclC.2.2.2.2.2,
        fun hw => writeFile_wf hwC (hwfA1 (createDirAll_wf fs _ hw))⟩
      · intro h
        exact absurd h (by decide)
      · intro q h1 _
        exact conclC.2.2.1 q h1
    cases prim with
    | ok =>
      have heval : moveOrCopy fs f dest .copy force .ok = (a2, .ok d .primitive) := by
        rw [moveOrCopy, hres]
        dsimp only
        rw [if_neg hcda_ne]
        rw [hremEq]
        dsimp only
        rw [if_neg hexA1, contentAt_eq_some.mpr hlfA1]
        dsimp only
        rw [hwC]
        rfl
      exact ⟨a2, .primitive, heval, by decide, hparA2, cc⟩
    | err e =>
      cases e with
      | crossesDevices =>
        have heval : moveOrCopy fs f dest .copy force (.err .crossesDevices) =
            (a2, .ok d .fallback) := by
          rw [moveOrCopy, hres]
          dsimp only
          rw [if_neg hcda_ne]
          rw [hremEq]
          dsimp only
          rw [if_neg hexA1]
          exact hfbc
        exact ⟨a2, .fallback, heval, by decide, hparA2, cc⟩
      | notSupported =>
        have heval : moveOrCopy fs f dest .copy force (.err .notSupported) =
            (a2, .ok d .fallback) := by
          rw [moveOrCopy, hres]
          dsimp only
          rw [if_neg hcda_ne]
          rw [hremEq]
          dsimp only
          rw [if_neg hexA1]
          exact hfbc
        exact ⟨a2, .fallback, heval, by decide, hparA2, cc⟩
      | other code => simp [primRecoverable] at hprim

/-! ### Boolean forms of the side conditions (for concrete instantiation) -/

/-- Every prefix of `p` (including `p`) is a directory or absent in `fs`. -/
def chainOk (fs : Node) (p : Path) : Bool :=
  p.inits.all (fun q => dirOrAbsentB fs q)

theorem chainOk_iff {fs : Node} {p : Path} :
    chainOk fs p = true ↔ ∀ q, q <+: p → dirOrAbsentB fs q = true := by
  rw [chainOk, List.all_eq_true]
  constructor
  · intro h q hq
    exact h q ((List.mem_inits q p).mpr hq)
  · intro h q hq
    exact h q ((List.mem_inits q p).mp hq)

theorem isPre_false_iff (a b : Path) : isPre a b = false ↔ ¬ a <+: b := by
  rw [← isPre_iff]
  cases isPre a b <;> simp

/-! ### Fatal primitive errors surface unchanged -/

/-- When the primitive fails with an error that is neither cross-device nor
unsupported, `move_or_copy` returns that OS error itself: no fallback. -/
theorem moveOrCopy_fatal {fs : Node} {f : Path} {dest : DestInput}
    {moc : MoveOrCopy} {force : Bool} {d : Path} {c : Content}
    (hres : ensureDest fs f dest force = .ok d)
    (hsf : contentAt fs f = some c)
    (hd0 : d ≠ [])
    (hchain : ∀ q, q <+: d.dropLast → dirOrAbsentB fs q = true)
    (hfd1 : ¬ f <+: d) :
    ∀ code, (moveOrCopy fs f dest moc force (.err (.other code))).2
      = .error (.osErr (.other code)) := by
  intro code
  have hlf : fs.lookup f = some (.file c) := contentAt_eq_some.mp hsf
  have hdest : fs.lookup d = none ∨ ∃ c0, fs.lookup d = some (.file c0) := by
    rcases ensureDest_destPolicy hres with h | ⟨h, _⟩
    · exact Or.inl h
    · exact Or.inr (isFileAt_iff.mp h)
  have hcda_ok : (fs.createDirAll d.dropLast).2 = true :=
    (createDirAll_ok_iff _ _).mpr (fun q hq => hchain q hq)
  have hcda_ne : ¬ ((fs.createDirAll d.dropLast).2 = false) := by
    simp [hcda_ok]
  set fs1 := (fs.createDirAll d.dropLast).1 with hfs1
  have hframe1 : ∀ q, ¬ q <+: d.dropLast → fs1.lookup q = fs.lookup q :=
    fun q hq => createDirAll_frame fs _ q hq
  have hf_nchain : ¬ f <+: d.dropLast := fun hp => hfd1 (hp.trans (dropLast_pre d))
  have hd_nchain : ¬ d <+: d.dropLast := not_self_pre_dropLast hd0
  have hlf1 : fs1.lookup f = some (.file c) := by
    rw [hframe1 f hf_nchain]; exact hlf
  have hd1 : fs1.lookup d = none ∨ ∃ c0, fs1.lookup d = some (.file c0) := by
    rw [hframe1 d hd_nchain]; exact hdest
  cases moc with
  | move =>
    rw [moveOrCopy, hres]
    dsimp only
    rw [if_neg hcda_ne]
  | copy =>
    have hremPack : ∃ a1, (if existsAt fs1 d then
        match fs1.removeFile d with
        | some f => (f, true)
        | none => (fs1, false)
      else (fs1, true)) = (a1, true) ∧
        (∀ q, ¬ q <+: d → a1.lookup q = fs1.lookup q) := by
      rcases hd1 with h | ⟨c0, h⟩
      · refine ⟨fs1, ?_, fun q _ => rfl⟩
        rw [if_neg]
        rw [existsAt, h]
        simp
      · obtain ⟨a1, ha1⟩ := removeFile_exists hd0 h
        have hex : existsAt fs1 d = true := by rw [existsAt, h]; rfl
        refine ⟨a1, ?_, removeFile_frame ha1⟩
        rw [if_pos hex, ha1]
    obtain ⟨a1, hremEq, hframeA1⟩ := hremPack
    have hlfA1 : a1.lookup f = some (.file c) := by
      rw [hframeA1 f hfd1]; exact hlf1
    have hexA1 : ¬ (¬ existsAt a1 f = true) := by
      rw [existsAt, hlfA1]
      simp
    rw [moveOrCopy, hres]
    dsimp only
    rw [if_neg hcda_ne]
    rw [hremEq]
    dsimp only
    rw [if_neg hexA1]
    rfl

instance : DecidableEq (Except Err Path) := fun a b =>
  match a, b with
  | .ok x, .ok y =>
    match decEq x y with
    | isTrue h => isTrue (by rw [h])
    | isFalse h => isFalse (fun he => h (by cases he; rfl))
  | .error x, .error y =>
    match decEq x y with
    | isTrue h => isTrue (by rw [h])
    | isFalse h => isFalse (fun he => h (by cases he; rfl))
  | .ok _, .error _ => isFalse (fun he => Except.noConfusion he)
  | .error _, .ok _ => isFalse (fun he => Except.noConfusion he)

/-! ### Claim C1 -/

/-- Claim C1 counterexample: with `f = d` (permitted by the pre-transfer
checks when `force` is true), a Move-mode transfer succeeds via `fs::rename`
— a POSIX no-op for equal paths — and leaves `f` existing, contradicting
"leaves f nonexistent". -/
theorem c1_counterexample :
    ensureDest (.dir [("f", .file [1, 2, 3])]) ["f"] ⟨["f"], false⟩ true
      = .ok ["f"] ∧
    (moveOrCopy (.dir [("f", .file [1, 2, 3])]) ["f"] ⟨["f"], false⟩
      .move true .ok).2 = .ok ["f"] .primitive ∧
    existsAt (moveOrCopy (.dir [("f", .file [1, 2, 3])]) ["f"] ⟨["f"], false⟩
      .move true .ok).1 ["f"] = true := by
  decide

/-- Claim C1 (amended): for a regular file `f` with content `c` whose
resolved destination `d` passes the pre-transfer checks, is distinct from
`f` (and not nested with it), and whose parent chain is creatable, a
successful transfer leaves: in Move mode `f` gone and `d` with content `c`;
in Copy mode both `f` and `d` with content `c` — via the primitive exactly
when the oracle reports success, and via the buffered fallback on a
recoverable error. -/
theorem c1_move_copy_transfer {fs : Node} {f : Path} {dest : DestInput}
    {moc : MoveOrCopy} {force : Bool} {prim : PrimOutcome} {d : Path} {c : Content}
    (hres : ensureDest fs f dest force = .ok d)
    (hsf : contentAt fs f = some c)
    (hf0 : f ≠ []) (hd0 : d ≠ [])
    (hchain : chainOk fs d.dropLast = true)
    (hfd : isPre f d = false) (hdf : isPre d f = false)
    (hprim : primRecoverable prim = true) :
    ∃ fs' strat, moveOrCopy fs f dest moc force prim = (fs', .ok d strat) ∧
      (strat = .primitive ↔ prim = .ok) ∧
      (moc = .move → fs'.lookup f = none ∧ contentAt fs' d = some c) ∧
      (moc = .copy → contentAt fs' f = some c ∧ contentAt fs' d = some c) := by
  have hdest : fs.lookup d = none ∨ ∃ c0, fs.lookup d = some (.file c0) := by
    rcases ensureDest_destPolicy hres with h | ⟨h, _⟩
    · exact Or.inl h
    · exact Or.inr (isFileAt_iff.mp h)
  obtain ⟨fs', strat, heq, hiff, _, hcd, hmv, hcp, _⟩ :=
    moveOrCopy_ok hres hsf hf0 hd0 hdest (chainOk_iff.mp hchain)
      ((isPre_false_iff f d).mp hfd) ((isPre_false_iff d f).mp hdf) hprim
  exact ⟨fs', strat, heq, hiff, fun h => ⟨hmv h, hcd⟩, fun h => ⟨hcp h, hcd⟩⟩

/-- Witness for C1 at a concrete move into a fresh destination. -/
theorem c1_witness :
    ensureDest (.dir [("a", .file [7, 8]), ("out", .dir [])]) ["a"]
      ⟨["out", "b"], false⟩ false = .ok ["out", "b"] ∧
    contentAt (.dir [("a", .file [7, 8]), ("out", .dir [])]) ["a"] = some [7, 8] ∧
    chainOk (.dir [("a", .file [7, 8]), ("out", .dir [])])
      (List.dropLast ["out", "b"]) = true ∧
    (∃ fs' strat,
      moveOrCopy (.dir [("a", .file [7, 8]), ("out", .dir [])]) ["a"]
        ⟨["out", "b"], false⟩ .move false .ok = (fs', .ok ["out", "b"] strat) ∧
      (strat = .primitive ↔ PrimOutcome.ok = .ok) ∧
      (MoveOrCopy.move = .move → fs'.lookup ["a"] = none ∧
        contentAt fs' ["out", "b"] = some [7, 8]) ∧
      (MoveOrCopy.move = .copy → contentAt fs' ["a"] = some [7, 8] ∧
        contentAt fs' ["out", "b"] = some [7, 8])) :=
  ⟨by decide, by decide, by decide,
    c1_move_copy_transfer (by decide) (by decide) (by decide) (by decide)
      (by decide) (by decide) (by decide) (by decide)⟩

/-! ### Claim C2 -/

/-- Claim C2: for a single-file transfer whose resolution and parent
creation succeed, the buffered-copy fallback completes the transfer exactly
when the primitive error is classified cross-device or
operation-unsupported (and such an error is never surfaced); the primitive
succeeding uses no fallback; and any other primitive error is returned
to the caller unchanged. -/
theorem c2_error_classification {fs : Node} {f : Path} {dest : DestInput}
    {moc : MoveOrCopy} {force : Bool} {d : Path} {c : Content}
    (hres : ensureDest fs f dest force = .ok d)
    (hsf : contentAt fs f = some c)
    (hf0 : f ≠ []) (hd0 : d ≠ [])
    (hchain : chainOk fs d.dropLast = true)
    (hfd : isPre f d = false) (hdf : isPre d f = false) :
    (∀ code, (moveOrCopy fs f dest moc force (.err (.other code))).2
      = .error (.osErr (.other code))) ∧
    (∀ e : PrimErr,
      (∃ fs', moveOrCopy fs f dest moc force (.err e) = (fs', .ok d .fallback)) ↔
      (e = .crossesDevices ∨ e = .notSupported)) ∧
    (∃ fs', moveOrCopy fs f dest moc force .ok = (fs', .ok d .primitive)) := by
  have hfd1 : ¬ f <+: d := (isPre_false_iff f d).mp hfd
  have hdf1 : ¬ d <+: f := (isPre_false_iff d f).mp hdf
  have hchain' := chainOk_iff.mp hchain
  have hfatal := @moveOrCopy_fatal fs f dest moc force d c hres hsf hd0
    hchain' hfd1
  have hdest : fs.lookup d = none ∨ ∃ c0, fs.lookup d = some (.file c0) := by
    rcases ensureDest_destPolicy hres with h | ⟨h, _⟩
    · exact Or.inl h
    · exact Or.inr (isFileAt_iff.mp h)
  refine ⟨hfatal, ?_, ?_⟩
  · intro e
    constructor
    · rintro ⟨fs', heq⟩
      cases e with
      | crossesDevices => exact Or.inl rfl
      | notSupported => exact Or.inr rfl
      | other code =>
        have h1 := hfatal code
        rw [heq] at h1
        exact absurd h1 (by simp)
    · intro he
      have hrec : primRecoverable (.err e) = true := by
        rcases he with rfl | rfl <;> rfl
      obtain ⟨fs', strat, heq, hiff, _⟩ :=
        moveOrCopy_ok hres hsf hf0 hd0 hdest hchain' hfd1 hdf1 hrec
      cases strat with
      | primitive =>
        have : PrimOutcome.err e = .ok := hiff.mp rfl
        exact absurd this (by simp)
      | fallback => exact ⟨fs', heq⟩
  · have hrec : primRecoverable PrimOutcome.ok = true := rfl
    obtain ⟨fs', strat, heq, hiff, _⟩ :=
      moveOrCopy_ok hres hsf hf0 hd0 hdest hchain' hfd1 hdf1 hrec
    cases strat with
    | primitive => exact ⟨fs', heq⟩
    | fallback =>
      have : Strategy.fallback = .primitive := by
        rw [hiff]
      exact absurd this (by simp)

/-- Witness for C2 at a concrete copy. -/
theorem c2_witness :
    ensureDest (.dir [("a", .file [4]), ("out", .dir [])]) ["a"]
      ⟨["out", "b"], false⟩ false = .ok ["out", "b"] ∧
    ((∀ code, (moveOrCopy (.dir [("a", .file [4]), ("out", .dir [])]) ["a"]
        ⟨["out", "b"], false⟩ .copy false (.err (.other code))).2
      = .error (.osErr (.other code))) ∧
    (∀ e : PrimErr,
      (∃ fs', moveOrCopy (.dir [("a", .file [4]), ("out", .dir [])]) ["a"]
          ⟨["out", "b"], false⟩ .copy false (.err e)
        = (fs', .ok ["out", "b"] .fallback)) ↔
      (e = .crossesDevices ∨ e = .notSupported)) ∧
    (∃ fs', moveOrCopy (.dir [("a", .file [4]), ("out", .dir [])]) ["a"]
        ⟨["out", "b"], false⟩ .copy false .ok
      = (fs', .ok ["out", "b"] .primitive))) :=
  ⟨by decide,
    @c2_error_classification (.dir [("a", .file [4]), ("out", .dir [])]) ["a"]
      ⟨["out", "b"], false⟩ .copy false ["out", "b"] [4]
      (by decide) (by decide) (by decide) (by decide)
      (by decide) (by decide) (by decide)⟩

/-! ### Claim C8 -/

/-- Claim C8: destination resolution — when the destination is an existing
directory, or absent with its textual form ending in a separator, the
resolved destination appends the source file name, and otherwise the
destination is used verbatim; resolution fails whenever the source has no
file-name component (the root path); and a successful transfer has created
the resolved destination's missing parent directories. -/
theorem c8_destination_resolution :
    (∀ (fs : Node) (src : Path) (dest : DestInput) (force : Bool) (d : Path),
      ensureDest fs src dest force = .ok d →
      ((isDirAt fs dest.path || (!existsAt fs dest.path && dest.trailingSep)) = true →
        ∃ name, src.getLast? = some name ∧ d = dest.path ++ [name]) ∧
      ((isDirAt fs dest.path || (!existsAt fs dest.path && dest.trailingSep)) = false →
        d = dest.path)) ∧
    (∀ (es : Entries) (dest : DestInput) (force : Bool),
      ∃ e, ensureDest (.dir es) [] dest force = .error e) ∧
    (∀ (fs : Node) (f : Path) (dest : DestInput) (moc : MoveOrCopy)
        (force : Bool) (prim : PrimOutcome) (d : Path) (c : Content),
      ensureDest fs f dest force = .ok d →
      contentAt fs f = some c →
      f ≠ [] → d ≠ [] →
      chainOk fs d.dropLast = true →
      isPre f d = false → isPre d f = false →
      primRecoverable prim = true →
      ∃ fs' strat, moveOrCopy fs f dest moc force prim = (fs', .ok d strat) ∧
        isDirAt fs' d.dropLast = true) := by
  refine ⟨?_, ?_, ?_⟩
  · intro fs src dest force d h
    have hr := ensureDest_resolution h
    constructor
    · intro hc
      rw [if_pos hc] at hr
      exact hr
    · intro hc
      rw [if_neg (by simp [hc])] at hr
      exact hr
  · intro es dest force
    refine ⟨.srcNotFile [], ?_⟩
    unfold ensureDest
    simp [existsAt, isFileAt, Node.lookup]
  · intro fs f dest moc force prim d c hres hsf hf0 hd0 hchain hfd hdf hprim
    have hdest : fs.lookup d = none ∨ ∃ c0, fs.lookup d = some (.file c0) := by
      rcases ensureDest_destPolicy hres with h | ⟨h, _⟩
      · exact Or.inl h
      · exact Or.inr (isFileAt_iff.mp h)
    obtain ⟨fs', strat, heq, _, hpar, _⟩ :=
      moveOrCopy_ok hres hsf hf0 hd0 hdest (chainOk_iff.mp hchain)
        ((isPre_false_iff f d).mp hfd) ((isPre_false_iff d f).mp hdf) hprim
    exact ⟨fs', strat, heq, hpar⟩

/-- Witness for C8: `move(a, "newdir/")` with `newdir` absent resolves to
`newdir/a`, creates `newdir`, and places the file there. -/
theorem c8_witness :
    ensureDest (.dir [("a", .file [9])]) ["a"] ⟨["newdir"], true⟩ false
      = .ok ["newdir", "a"] ∧
    ((isDirAt (.dir [("a", .file [9])]) ["newdir"] ||
      (!existsAt (.dir [("a", .file [9])]) ["newdir"] && true)) = true →
      ∃ name, (["a"] : Path).getLast? = some name ∧
        (["newdir", "a"] : Path) = ["newdir"] ++ [name]) ∧
    (∃ e, ensureDest (.dir [("a", .file [9])]) [] ⟨["newdir"], true⟩ false
      = .error e) ∧
    (∃ fs' strat,
      moveOrCopy (.dir [("a", .file [9])]) ["a"] ⟨["newdir"], true⟩
        .move false .ok = (fs', .ok ["newdir", "a"] strat) ∧
      isDirAt fs' (List.dropLast ["newdir", "a"]) = true) :=
  ⟨by decide,
    (c8_destination_resolution.1 (.dir [("a", .file [9])]) ["a"]
      ⟨["newdir"], true⟩ false ["newdir", "a"] (by decide)).1,
    c8_destination_resolution.2.1 [("a", .file [9])] ⟨["newdir"], true⟩ false,
    c8_destination_resolution.2.2 (.dir [("a", .file [9])]) ["a"]
      ⟨["newdir"], true⟩ .move false .ok ["newdir", "a"] [9]
      (by decide) (by decide) (by decide) (by decide) (by decide)
      (by decide) (by decide) (by decide)⟩

/-! ### `collect_files_in_dir` (src/dir.rs) -/

mutual

/-- `collect_files_in_dir` on one entry node: a regular file contributes
itself (relative path `[]`), a directory recurses, anything else panics. -/
def collectN : Node → Option (List Path)
  | .file _ => some [[]]
  | .dir es => collectList es
  | .special => none

/-- `collect_files_in_dir` on an entry list. -/
def collectList : Entries → Option (List Path)
  | [] => some []
  | (k, n) :: rest => do
    let sub ← collectN n
    let r ← collectList rest
    pure (sub.map (fun p => k :: p) ++ r)

end

mutual

/-- The node holds (transitively) a non-file non-directory entry. -/
def anySpecialN : Node → Bool
  | .special => true
  | .dir es => anySpecial es
  | .file _ => false

/-- The entry list holds (transitively) a non-file non-directory entry. -/
def anySpecial : Entries → Bool
  | [] => false
  | (_, n) :: rest => anySpecialN n || anySpecial rest

end

mutual

/-- The panic of the collection fires exactly when the node holds a
non-file non-directory entry. -/
theorem collectN_none_iff : ∀ n : Node,
    collectN n = none ↔ anySpecialN n = true
  | .file c => by simp [collectN, anySpecialN]
  | .special => by simp [collectN, anySpecialN]
  | .dir es => by
    rw [show collectN (.dir es) = collectList es from rfl,
      show anySpecialN (.dir es) = anySpecial es from rfl]
    exact collectList_none_iff es

/-- The panic of `collect_files_in_dir` fires exactly when the tree holds
a non-file non-directory entry. -/
theorem collectList_none_iff : ∀ es : Entries,
    collectList es = none ↔ anySpecial es = true
  | [] => by simp [collectList, anySpecial]
  | (k, n) :: rest => by
    have h1 := collectN_none_iff n
    have h2 := collectList_none_iff rest
    rw [collectList, anySpecial]
    cases hn : collectN n with
    | none =>
      simp only [hn] at h1
      simp [hn, h1.mp trivial]
    | some sub =>
      have hsn : anySpecialN n = false := by
        cases h : anySpecialN n
        · rfl
        · exact absurd (h1.mpr h) (by simp [hn])
      cases hr : collectList rest with
      | none =>
        simp only [hr] at h2
        simp [hn, hr, hsn, h2.mp trivial]
      | some r =>
        have hsr : anySpecial rest = false := by
          cases h : anySpecial rest
          · rfl
          · exact absurd (h2.mpr h) (by simp [hr])
        simp [hn, hr, hsn, hsr]

end

mutual

/-- Completeness of the collection at a node: every regular file reachable
below it is collected. -/
theorem collectN_complete : ∀ (n : Node) (rels : List Path),
    collectN n = some rels →
    ∀ p c, n.lookup p = some (.file c) → p ∈ rels
  | .file c0, rels => by
    intro h p c hp
    rw [collectN] at h
    injection h with h
    subst h
    cases p with
    | nil => simp
    | cons a as => simp [Node.lookup] at hp
  | .special, rels => by
    intro h
    rw [collectN] at h
    exact absurd h (by simp)
  | .dir es, rels => by
    intro h p c hp
    exact collectList_complete es rels h p c hp

/-- Completeness of the collection: every regular file reachable under the
directory is collected. -/
theorem collectList_complete : ∀ (es : Entries) (rels : List Path),
    collectList es = some rels →
    ∀ p c, Node.lookup (.dir es) p = some (.file c) → p ∈ rels
  | [], rels => by
    intro h p c hp
    cases p with
    | nil => simp [Node.lookup] at hp
    | cons a as => simp [Node.lookup, findEntry] at hp
  | (k, n) :: rest, rels => by
    intro h p c hp
    rw [collectList] at h
    cases hn : collectN n with
    | none => rw [hn] at h; simp at h
    | some sub =>
      cases hr : collectList rest with
      | none => rw [hn, hr] at h; simp at h
      | some r =>
        rw [hn, hr] at h
        simp at h
        subst h
        cases p with
        | nil => simp [Node.lookup] at hp
        | cons a as =>
          by_cases ha : k = a
          · subst ha
            simp only [Node.lookup, findEntry, if_pos rfl] at hp
            have hm := collectN_complete n sub hn as c hp
            exact List.mem_append.mpr
              (Or.inl (List.mem_map.mpr ⟨as, hm, rfl⟩))
          · simp only [Node.lookup, findEntry, if_neg ha] at hp
            have h3 : Node.lookup (.dir rest) (a :: as) = some (.file c) := by
              simp only [Node.lookup]
              exact hp
            exact List.mem_append.mpr
              (Or.inr (collectList_complete rest r hr (a :: as) c h3))

end

mutual

/-- No `special` entry is reachable below a node once its collection has
succeeded. -/
theorem collectN_noSpecial : ∀ (n : Node) (rels : List Path),
    collectN n = some rels → ∀ p, n.lookup p ≠ some .special
  | .file c0, rels => by
    intro _ p hp
    cases p with
    | nil => simp [Node.lookup] at hp
    | cons a as => simp [Node.lookup] at hp
  | .special, rels => by
    intro h
    rw [collectN] at h
    exact absurd h (by simp)
  | .dir es, rels => by
    intro h p hp
    exact collectList_noSpecial es rels h p hp

/-- No `special` entry is reachable once the collection has succeeded. -/
theorem collectList_noSpecial : ∀ (es : Entries) (rels : List Path),
    collectList es = some rels →
    ∀ p, Node.lookup (.dir es) p ≠ some .special
  | [], rels => by
    intro _ p hp
    cases p with
    | nil => simp [Node.lookup] at hp
    | cons a as => simp [Node.lookup, findEntry] at hp
  | (k, n) :: rest, rels => by
    intro h p hp
    rw [collectList] at h
    cases hn : collectN n with
    | none => rw [hn] at h; simp at h
    | some sub =>
      cases hr : collectList rest with
      | none => rw [hn, hr] at h; simp at h
      | some r =>
        cases p with
        | nil => simp [Node.lookup] at hp
        | cons a as =>
          by_cases ha : k = a
          · subst ha
            simp only [Node.lookup, findEntry, if_pos rfl] at hp
            exact collectN_noSpecial n sub hn as hp
          · simp only [Node.lookup, findEntry, if_neg ha] at hp
            exact collectList_noSpecial rest r hr (a :: as)
              (by simp only [Node.lookup]; exact hp)

end


/-! ### `remove_empty_dir` (src/dir.rs) -/

/-- Replace the node at an existing path. -/
def Node.setNodeAt : Node → Path → Node → Option Node
  | _, [], m => some m
  | .dir es, k :: ks, m =>
    match findEntry es k with
    | some n0 => (Node.setNodeAt n0 ks m).map (fun n0' => .dir (setEntry es k n0'))
    | none => none
  | .file _, _ :: _, _ => none
  | .special, _ :: _, _ => none

mutual

/-- The recursive pass of `remove_empty_dir` on one entry node: a
directory is swept recursively; anything else fails (`fs::read_dir` on it
errors). -/
def sweepN : Node → Node × Bool
  | .dir es =>
    let r := sweepEntries es
    (.dir r.1, r.2)
  | n => (n, false)

/-- The recursive child pass of `remove_empty_dir`: remove every entry
that is a directory all the way down; fail at the first entry that is not,
leaving the earlier entries removed. -/
def sweepEntries : Entries → Entries × Bool
  | [] => ([], true)
  | (k, n) :: rest =>
    let r := sweepN n
    if r.2 then sweepEntries rest
    else ((k, r.1) :: rest, false)

end

mutual

/-- The node is a subtree of directories only (no files, no specials). -/
def onlyDirsN : Node → Bool
  | .dir es => onlyDirsList es
  | _ => false

/-- The subtree consists of directories only (no files, no specials). -/
def onlyDirsList : Entries → Bool
  | [] => true
  | (_, n) :: rest => onlyDirsN n && onlyDirsList rest

end

mutual

theorem sweepN_of_onlyDirs : ∀ n : Node,
    onlyDirsN n = true → sweepN n = (.dir [], true)
  | .dir es => by
    intro h
    rw [onlyDirsN] at h
    rw [sweepN, sweepEntries_of_onlyDirs es h]
  | .file c => by intro h; simp [onlyDirsN] at h
  | .special => by intro h; simp [onlyDirsN] at h

theorem sweepEntries_of_onlyDirs : ∀ es : Entries,
    onlyDirsList es = true → sweepEntries es = ([], true)
  | [] => by intro _; rw [sweepEntries]
  | (k, n) :: rest => by
    intro h
    rw [onlyDirsList, Bool.and_eq_true] at h
    rw [sweepEntries, sweepN_of_onlyDirs n h.1]
    exact sweepEntries_of_onlyDirs rest h.2

end

mutual

/-- On a well-formed node, the absence of reachable files and specials
means the subtree is directories-only. -/
theorem onlyDirsN_of_pointwise : ∀ n : Node, wfN n = true →
    (∀ p, isFileAt n p = false) → (∀ p, isSpecialAt n p = false) →
    onlyDirsN n = true
  | .dir es => fun hwf hF hS => by
    rw [onlyDirsN]
    exact onlyDirs_of_pointwise es (by simpa [wfN] using hwf) hF hS
  | .file c => fun _ hF _ => by
    have := hF []
    simp [isFileAt, Node.lookup] at this
  | .special => fun _ _ hS => by
    have := hS []
    simp [isSpecialAt, Node.lookup] at this

/-- On a well-formed tree, the absence of reachable files and specials
means the subtree is directories-only. -/
theorem onlyDirs_of_pointwise : ∀ es : Entries, wfEntries es = true →
    (∀ p, isFileAt (.dir es) p = false) →
    (∀ p, isSpecialAt (.dir es) p = false) →
    onlyDirsList es = true
  | [] => fun _ _ _ => by rw [onlyDirsList]
  | (k, n) :: rest => fun hwf hF hS => by
    rw [wfEntries] at hwf
    simp only [Bool.and_eq_true] at hwf
    rw [onlyDirsList, Bool.and_eq_true]
    constructor
    · refine onlyDirsN_of_pointwise n hwf.1.2 ?_ ?_
      · intro p
        have := hF (k :: p)
        simp only [isFileAt, Node.lookup, findEntry, if_pos rfl] at this ⊢
        exact this
      · intro p
        have := hS (k :: p)
        simp only [isSpecialAt, Node.lookup, findEntry, if_pos rfl] at this ⊢
        exact this
    · refine onlyDirs_of_pointwise rest hwf.2 ?_ ?_
      · intro p
        cases p with
        | nil => rfl
        | cons a as =>
          by_cases ha : a = k
          · subst ha
            have hn := hwf.1.1
            simp only [isFileAt, Node.lookup]
            cases hfe : findEntry rest a with
            | none => rfl
            | some m => rw [hfe] at hn; simp at hn
          · have := hF (a :: as)
            simp only [isFileAt, Node.lookup, findEntry,
              if_neg (Ne.symm ha)] at this
            simp only [isFileAt, Node.lookup]
            exact this
      · intro p
        cases p with
        | nil => rfl
        | cons a as =>
          by_cases ha : a = k
          · subst ha
            have hn := hwf.1.1
            simp only [isSpecialAt, Node.lookup]
            cases hfe : findEntry rest a with
            | none => rfl
            | some m => rw [hfe] at hn; simp at hn
          · have := hS (a :: as)
            simp only [isSpecialAt, Node.lookup, findEntry,
              if_neg (Ne.symm ha)] at this
            simp only [isSpecialAt, Node.lookup]
            exact this

end

/-- `remove_empty_dir(src)` as invoked at the end of a Move-mode merge:
sweep the subtree at `src` bottom-up and finally remove the (now empty)
`src` directory entry itself; on failure the partially swept subtree is
written back in place. -/
def removeSrcTree (fs : Node) (src : Path) : Node × Bool :=
  match fs.lookup src with
  | some (.dir es) =>
    let r := sweepEntries es
    if r.2 then
      match fs.removeDirAt src with
      | some fs' => (fs', true)
      | none => (fs, false)
    else
      match fs.setNodeAt src (.dir r.1) with
      | some fs' => (fs', false)
      | none => (fs, false)
  | _ => (fs, false)

theorem removeSrcTree_ok {fs : Node} {src : Path} {es : Entries}
    (hs0 : src ≠ []) (hsrc : fs.lookup src = some (.dir es))
    (hod : onlyDirsList es = true) :
    ∃ fs', removeSrcTree fs src = (fs', true) ∧ fs'.lookup src = none ∧
      (∀ q, ¬ q <+: src → ¬ src <+: q → fs'.lookup q = fs.lookup q) := by
  obtain ⟨fs', hrd⟩ := removeDirAt_exists hs0 hsrc
  refine ⟨fs', ?_, removeDirAt_self hrd, removeDirAt_frame hrd⟩
  rw [removeSrcTree, hsrc]
  dsimp only
  rw [sweepEntries_of_onlyDirs es hod]
  dsimp only
  rw [hrd]
  rfl

/-! ### The directory merge (`merge_or_copy` in src/dir.rs) -/

/-- Outcome of a merge or batch call: normal success, a reported error, a
`process::exit` (cancellation), or a panic. -/
inductive BatchOutcome where
  | ok
  | error (e : Err)
  | exited (code : Nat)
  | panicked
deriving Repr, DecidableEq

/-- State threaded through the loops: the filesystem, the index of the
next cancellation poll, and the index of the next primitive attempt. -/
structure MSt where
  fs : Node
  pollIdx : Nat
  primIdx : Nat

/-- The per-file loop of `merge_or_copy`: for each collected file, compute
its path relative to the source, poll the cancellation token (exiting the
process with status 130 when it is set), and delegate to `move_or_copy`
with the joined destination; the first error stops the loop. -/
def mergeLoopCore (src destp : Path) (moc : MoveOrCopy) (force : Bool)
    (tok : Nat → Bool) (prim : Nat → PrimOutcome) :
    List Path → MSt → MSt × BatchOutcome
  | [], st => (st, .ok)
  | f :: rest, st =>
    match stripPre src f with
    | none => (st, .error (.stripFail f))
    | some rel =>
      if tok st.pollIdx then (st, .exited 130)
      else
        match moveOrCopy st.fs f ⟨destp ++ rel, false⟩ moc force (prim st.primIdx) with
        | (fs', .ok _ _) =>
          mergeLoopCore src destp moc force tok prim rest
            ⟨fs', st.pollIdx + 1, st.primIdx + 1⟩
        | (fs', .error e) => (⟨fs', st.pollIdx + 1, st.primIdx + 1⟩, .error e)

/-- `merge_or_copy` (src/dir.rs): validate the source directory, create the
destination directory if missing, collect all files under the source
(panicking on a non-file non-directory entry), sort them by their textual
form, transfer them one by one, and in Move mode finally remove the
emptied source tree. -/
def mergeOrCopy (st : MSt) (src destp : Path) (moc : MoveOrCopy) (force : Bool)
    (tok : Nat → Bool) (prim : Nat → PrimOutcome) : MSt × BatchOutcome :=
  if ¬ existsAt st.fs src then (st, .error (.srcNotFound src))
  else if ¬ isDirAt st.fs src then (st, .error (.srcNotDir src))
  else if existsAt st.fs destp && !(isDirAt st.fs destp) then
    (st, .error (.destNotADir destp))
  else
    let pre := if existsAt st.fs destp then (st.fs, true)
      else st.fs.createDirAll destp
    if pre.2 = false then ({st with fs := pre.1}, .error (.ioFail destp))
    else
      match (pre.1).lookup src with
      | some (.dir es) =>
        match collectList es with
        | none => ({st with fs := pre.1}, .panicked)
        | some rels =>
          let files := sortFiles (rels.map (fun r => src ++ r))
          let r := mergeLoopCore src destp moc force tok prim files {st with fs := pre.1}
          match r.2 with
          | .ok =>
            match moc with
            | .copy => (r.1, .ok)
            | .move =>
              let rr := removeSrcTree (r.1).fs src
              if rr.2 then ({r.1 with fs := rr.1}, .ok)
              else ({r.1 with fs := rr.1}, .error (.ioFail src))
          | out => (r.1, out)
      | _ => (st, .error (.srcNotDir src))

/-! ### `run_batch` (src/lib.rs) -/

/-- The up-front classification loop of `run_batch`: scan the sources in
order, recording whether all are files and whether all are directories,
and failing at the first source that is neither. -/
def classifySrcs (fs : Node) : List Path → Bool → Bool → Except Err (Bool × Bool)
  | [], af, ad => .ok (af, ad)
  | s :: rest, af, ad =>
    if isFileAt fs s then classifySrcs fs rest af false
    else if isDirAt fs s then classifySrcs fs rest false ad
    else .error (.invalidSource s)

/-- The configuration bundle (`Ctx` in src/lib.rs, without the rendering
handles). -/
structure Ctx where
  moc : MoveOrCopy
  force : Bool
  dryRun : Bool
deriving Repr, DecidableEq

/-- The per-source loop of `run_batch`: poll the cancellation token before
each source (exiting with status 130 when set), then dispatch to the
single-file transfer or the directory merge. -/
def batchLoop (dest : DestInput) (moc : MoveOrCopy) (force : Bool)
    (tok : Nat → Bool) (prim : Nat → PrimOutcome) :
    List Path → MSt → MSt × BatchOutcome
  | [], st => (st, .ok)
  | s :: rest, st =>
    if tok st.pollIdx then (st, .exited 130)
    else
      let st1 : MSt := ⟨st.fs, st.pollIdx + 1, st.primIdx⟩
      if isFileAt st1.fs s then
        match moveOrCopy st1.fs s dest moc force (prim st1.primIdx) with
        | (fs', .ok _ _) =>
          batchLoop dest moc force tok prim rest ⟨fs', st1.pollIdx, st1.primIdx + 1⟩
        | (fs', .error e) => (⟨fs', st1.pollIdx, st1.primIdx + 1⟩, .error e)
      else
        match mergeOrCopy st1 s dest.path moc force tok prim with
        | (st', .ok) => batchLoop dest moc force tok prim rest st'
        | r => r

/-- `run_batch` (src/lib.rs): classify the sources, enforce the
multi-source constraints, honour `dry_run`, and run the per-source loop. -/
def runBatch (fs : Node) (srcs : List Path) (dest : DestInput) (ctx : Ctx)
    (tok : Nat → Bool) (prim : Nat → PrimOutcome) : Node × BatchOutcome :=
  match classifySrcs fs srcs true true with
  | .error e => (fs, .error e)
  | .ok (af, ad) =>
    if 1 < srcs.length then
      if ¬ isDirAt fs dest.path then (fs, .error .multiSrcDestNotDir)
      else if ¬ (af || ad) then (fs, .error .mixedKinds)
      else if ctx.dryRun then (fs, .ok)
      else
        let r := batchLoop dest ctx.moc ctx.force tok prim srcs ⟨fs, 0, 0⟩
        ((r.1).fs, r.2)
    else if ctx.dryRun then (fs, .ok)
    else
      let r := batchLoop dest ctx.moc ctx.force tok prim srcs ⟨fs, 0, 0⟩
      ((r.1).fs, r.2)

/-! ### Helper facts for the merge loop -/

/-- Extensions of two prefix-incomparable roots stay prefix-incomparable. -/
theorem cross_incomp {x y : Path} (hxy : ¬ x <+: y) (hyx : ¬ y <+: x) :
    ∀ a b, ¬ (x ++ a) <+: (y ++ b) := by
  intro a b hp
  have hx : x <+: (y ++ b) := (pre_append x a).trans hp
  have hy : y <+: (y ++ b) := pre_append y b
  rcases pre_total hx hy with h | h
  · exact hxy h
  · exact hyx h

/-- A nonexistent plain destination resolves verbatim. -/
theorem ensureDest_verbatim_absent {fs : Node} {f d : Path} {force : Bool}
    (hf : isFileAt fs f = true) (hd : fs.lookup d = none) :
    ensureDest fs f ⟨d, false⟩ force = .ok d := by
  have hex : existsAt fs f = true := by
    rw [existsAt]
    obtain ⟨c, hc⟩ := isFileAt_iff.mp hf
    rw [hc]
    rfl
  have hdd : isDirAt fs d = false := by rw [isDirAt, hd]
  have hde : existsAt fs d = false := by rw [existsAt, hd]; rfl
  unfold ensureDest
  simp [hex, hf, hdd, hde]

/-- An existing regular-file destination without `force` is rejected with
the `DestinationExists` policy error, before any mutation. -/
theorem ensureDest_conflict {fs : Node} {f d : Path}
    (hf : isFileAt fs f = true) (hd : isFileAt fs d = true) :
    ensureDest fs f ⟨d, false⟩ false = .error (.destExistsNoForce d) := by
  have hex : existsAt fs f = true := by
    rw [existsAt]
    obtain ⟨c, hc⟩ := isFileAt_iff.mp hf
    rw [hc]
    rfl
  obtain ⟨c0, hc0⟩ := isFileAt_iff.mp hd
  have hdd : isDirAt fs d = false := by rw [isDirAt, hc0]
  have hde : existsAt fs d = true := by rw [existsAt, hc0]; rfl
  unfold ensureDest
  simp [hex, hf, hdd, hde, hd]

/-- `move_or_copy` propagates an `ensure_dest` failure without touching the
filesystem. -/
theorem moveOrCopy_ensure_error {fs : Node} {f : Path} {dest : DestInput}
    {moc : MoveOrCopy} {force : Bool} {prim : PrimOutcome} {e : Err}
    (h : ensureDest fs f dest force = .error e) :
    moveOrCopy fs f dest moc force prim = (fs, .error e) := by
  rw [moveOrCopy, h]

/-- The merge loop splits over list append. -/
theorem mergeLoop_append (src destp : Path) (moc : MoveOrCopy) (force : Bool)
    (tok : Nat → Bool) (prim : Nat → PrimOutcome) :
    ∀ (A B : List Path) (st : MSt),
      mergeLoopCore src destp moc force tok prim (A ++ B) st =
      (match mergeLoopCore src destp moc force tok prim A st with
       | (st', .ok) => mergeLoopCore src destp moc force tok prim B st'
       | r => r) := by
  intro A
  induction A with
  | nil =>
    intro B st
    rw [List.nil_append, mergeLoopCore]
  | cons f A' ih =>
    intro B st
    rw [List.cons_append, mergeLoopCore]
    cases hstrip : stripPre src f with
    | none =>
      rw [mergeLoopCore, hstrip]
    | some rel =>
      by_cases htok : tok st.pollIdx = true
      · rw [mergeLoopCore, hstrip]
        simp only [if_pos htok]
      · rw [mergeLoopCore, hstrip]
        simp only [if_neg htok]
        cases hmoc : moveOrCopy st.fs f ⟨destp ++ rel, false⟩ moc force (prim st.primIdx) with
        | mk fs' res =>
          cases res with
          | ok d strat =>
            dsimp only
            exact ih B ⟨fs', st.pollIdx + 1, st.primIdx + 1⟩
          | error e => dsimp only

theorem contentAt_congr {a b : Node} {p : Path} (h : a.lookup p = b.lookup p) :
    contentAt a p = contentAt b p := by
  rw [contentAt, contentAt, h]

theorem dirOrAbsentB_iff {fs : Node} {q : Path} :
    dirOrAbsentB fs q = true ↔ (isFileAt fs q = false ∧ isSpecialAt fs q = false) := by
  rw [dirOrAbsentB, isFileAt, isSpecialAt]
  cases hl : fs.lookup q with
  | none => simp
  | some m => cases m <;> simp

/-- The pairwise condition used on relative file paths: no collected file
path is a prefix of another. -/
def preFree (a b : Path) : Prop := ¬ a <+: b ∧ ¬ b <+: a

instance : DecidableRel preFree := fun a b =>
  inferInstanceAs (Decidable (¬ a <+: b ∧ ¬ b <+: a))

/-- The master lemma for an error-free run of the merge loop over relative
paths `R`: every file is transferred (and, when moving, removed from the
source), paths of other files and unrelated paths are untouched,
directories survive, no file or special entry appears anywhere new, and
well-formedness is preserved. -/
theorem mergeLoop_all_ok {src destp : Path} {moc : MoveOrCopy} {force : Bool}
    {tok : Nat → Bool} {prim : Nat → PrimOutcome}
    (hsd : ¬ src <+: destp) (hds : ¬ destp <+: src) (hs0 : src ≠ []) :
    ∀ (R : List Path) (st : MSt),
      (∀ r ∈ R, r ≠ []) →
      (∀ r ∈ R, ∃ c, contentAt st.fs (src ++ r) = some c) →
      (∀ r ∈ R, st.fs.lookup (destp ++ r) = none) →
      (∀ r ∈ R, ∀ q, q <+: (destp ++ r).dropLast → dirOrAbsentB st.fs q = true) →
      List.Pairwise preFree R →
      (∀ i, i < R.length → tok (st.pollIdx + i) = false) →
      (∀ i, i < R.length → primRecoverable (prim (st.primIdx + i)) = true) →
      ∃ fsN,
        mergeLoopCore src destp moc force tok prim (R.map (fun r => src ++ r)) st
          = (⟨fsN, st.pollIdx + R.length, st.primIdx + R.length⟩, .ok) ∧
        (∀ r ∈ R, contentAt fsN (destp ++ r) = contentAt st.fs (src ++ r)) ∧
        (moc = .move → ∀ r ∈ R, fsN.lookup (src ++ r) = none) ∧
        (moc = .copy → ∀ r ∈ R, contentAt fsN (src ++ r) = contentAt st.fs (src ++ r)) ∧
        (∀ q, (∀ r ∈ R, ¬ q <+: (destp ++ r) ∧ (moc = .move → ¬ q <+: (src ++ r))) →
          fsN.lookup q = st.fs.lookup q) ∧
        (∀ q, isDirAt st.fs q = true → isDirAt fsN q = true) ∧
        (∀ q, isFileAt fsN q = true →
          isFileAt st.fs q = true ∨ ∃ r ∈ R, q = destp ++ r) ∧
        (∀ q, isSpecialAt fsN q = true → isSpecialAt st.fs q = true) ∧
        (wfN st.fs = true → wfN fsN = true) := by
  intro R
  induction R with
  | nil =>
    intro st _ _ _ _ _ _ _
    refine ⟨st.fs, ?_, by simp, fun _ r hr => absurd hr (by simp),
      fun _ r hr => absurd hr (by simp), fun q _ => rfl, fun q h => h,
      fun q h => Or.inl h, fun q h => h, fun h => h⟩
    rw [List.map_nil, mergeLoopCore]
    simp
  | cons r0 rest ih =>
    intro st hne hc hdabs hchain hpair htok hprim
    obtain ⟨c0, hc0⟩ := hc r0 (List.mem_cons_self _ _)
    have hr0ne : r0 ≠ [] := hne r0 (List.mem_cons_self _ _)
    have hf0 : src ++ r0 ≠ [] := by
      intro h
      exact hs0 (List.append_eq_nil.mp h).1
    have hd0 : destp ++ r0 ≠ [] := by
      intro h
      exact hr0ne (List.append_eq_nil.mp h).2
    have hfile0 : isFileAt st.fs (src ++ r0) = true :=
      isFileAt_iff.mpr ⟨c0, contentAt_eq_some.mp hc0⟩
    have hdabs0 : st.fs.lookup (destp ++ r0) = none :=
      hdabs r0 (List.mem_cons_self _ _)
    have hres : ensureDest st.fs (src ++ r0) ⟨destp ++ r0, false⟩ force
        = .ok (destp ++ r0) := ensureDest_verbatim_absent hfile0 hdabs0
    have hfd1 : ¬ (src ++ r0) <+: (destp ++ r0) := cross_incomp hsd hds r0 r0
    have hdf1 : ¬ (destp ++ r0) <+: (src ++ r0) := cross_incomp hds hsd r0 r0
    have hprim0 : primRecoverable (prim st.primIdx) = true := by
      have := hprim 0 (by simp)
      simpa using this
    have htok0 : tok st.pollIdx = false := by
      have := htok 0 (by simp)
      simpa using this
    obtain ⟨fs', strat, heval, hstrat, hpard, hcd, hmv, hcp, hframe, hdirm,
        hnewf, hnews, hwfp⟩ :=
      @moveOrCopy_ok st.fs (src ++ r0) ⟨destp ++ r0, false⟩ moc force
        (prim st.primIdx) (destp ++ r0) c0 hres hc0 hf0 hd0 (Or.inl hdabs0)
        (hchain r0 (List.mem_cons_self _ _)) hfd1 hdf1 hprim0
    have hpair0 : ∀ r ∈ rest, preFree r0 r :=
      fun r hr => (List.pairwise_cons.mp hpair).1 r hr
    have hpairR : List.Pairwise preFree rest := (List.pairwise_cons.mp hpair).2
    -- facts preserved into fs1 for the remaining files
    have hframe' : ∀ r ∈ rest,
        fs'.lookup (src ++ r) = st.fs.lookup (src ++ r) ∧
        fs'.lookup (destp ++ r) = st.fs.lookup (destp ++ r) := by
      intro r hr
      constructor
      · refine hframe (src ++ r) (cross_incomp hsd hds r r0) (fun _ => ?_)
        rw [append_pre_append_iff]
        exact (hpair0 r hr).2
      · refine hframe (destp ++ r) ?_ (fun _ => cross_incomp hds hsd r r0)
        rw [append_pre_append_iff]
        exact (hpair0 r hr).2
    have hpres : ∀ r ∈ rest, ∀ q, q <+: (destp ++ r).dropLast →
        dirOrAbsentB st.fs q = true → dirOrAbsentB fs' q = true := by
      intro r hr q hq hda
      rcases dirOrAbsentB_iff.mp hda with ⟨hfF, hfS⟩
      refine dirOrAbsentB_iff.mpr ⟨?_, ?_⟩
      · cases hfi : isFileAt fs' q with
        | false => rfl
        | true =>
          rcases hnewf q hfi with h | h
          · rw [h] at hfF; exact hfF
          · subst h
            have h1 : (destp ++ r0) <+: (destp ++ r) :=
              (hq.trans (dropLast_pre _))
            rw [append_pre_append_iff] at h1
            exact absurd h1 (hpair0 r hr).1
      · cases hfi : isSpecialAt fs' q with
        | false => rfl
        | true =>
          rw [hnews q hfi] at hfS
          exact hfS
    have harith : ∀ i, i < rest.length →
        tok (st.pollIdx + 1 + i) = false := by
      intro i hi
      have h1 : st.pollIdx + 1 + i = st.pollIdx + (i + 1) := by omega
      rw [h1]
      exact htok (i + 1) (by simp; omega)
    have harithp : ∀ i, i < rest.length →
        primRecoverable (prim (st.primIdx + 1 + i)) = true := by
      intro i hi
      have h1 : st.primIdx + 1 + i = st.primIdx + (i + 1) := by omega
      rw [h1]
      exact hprim (i + 1) (by simp; omega)
    obtain ⟨fsN, heqN, hcN, hmvN, hcpN, hframeN, hdirN, hnewfN, hnewsN, hwfN⟩ :=
      ih ⟨fs', st.pollIdx + 1, st.primIdx + 1⟩
        (fun r hr => hne r (List.mem_cons_of_mem _ hr))
        (fun r hr => by
          obtain ⟨c, hcr⟩ := hc r (List.mem_cons_of_mem _ hr)
          exact ⟨c, (contentAt_congr (hframe' r hr).1).trans hcr⟩)
        (fun r hr => by
          show fs'.lookup (destp ++ r) = none
          rw [(hframe' r hr).2]
          exact hdabs r (List.mem_cons_of_mem _ hr))
        (fun r hr q hq => hpres r hr q hq
          (hchain r (List.mem_cons_of_mem _ hr) q hq))
        hpairR harith harithp
    refine ⟨fsN, ?_, ?_, ?_, ?_, ?_, ?_, ?_, ?_, ?_⟩
    · -- the loop equation
      rw [List.map_cons, mergeLoopCore, stripPre_append]
      simp only [htok0, Bool.false_eq_true, if_false]
      rw [heval]
      dsimp only
      rw [heqN]
      have h1 : st.pollIdx + 1 + rest.length = st.pollIdx + (r0 :: rest).length := by
        simp
        omega
      have h2 : st.primIdx + 1 + rest.length = st.primIdx + (r0 :: rest).length := by
        simp
        omega
      rw [h1, h2]
    · -- every file's bytes arrive at its destination
      intro r hr
      rcases List.mem_cons.mp hr with rfl | hr
      · have hk : fsN.lookup (destp ++ r) = fs'.lookup (destp ++ r) := by
          refine hframeN (destp ++ r) (fun r2 hr2 => ⟨?_, fun _ => ?_⟩)
          · rw [append_pre_append_iff]
            exact (hpair0 r2 hr2).1
          · exact cross_incomp hds hsd r r2
        exact ((contentAt_congr hk).trans hcd).trans hc0.symm
      · exact (hcN r hr).trans (contentAt_congr (hframe' r hr).1)
    · -- Move mode removes every source file
      intro hm r hr
      rcases List.mem_cons.mp hr with rfl | hr
      · have hk : fsN.lookup (src ++ r) = fs'.lookup (src ++ r) := by
          refine hframeN (src ++ r) (fun r2 hr2 => ⟨?_, fun _ => ?_⟩)
          · exact cross_incomp hsd hds r r2
          · rw [append_pre_append_iff]
            exact (hpair0 r2 hr2).1
        rw [hk]
        exact hmv hm
      · exact hmvN hm r hr
    · -- Copy mode keeps every source file
      intro hm r hr
      rcases List.mem_cons.mp hr with rfl | hr
      · have hk : fsN.lookup (src ++ r) = fs'.lookup (src ++ r) := by
          refine hframeN (src ++ r) (fun r2 hr2 => ⟨?_, fun hmv2 => ?_⟩)
          · exact cross_incomp hsd hds r r2
          · rw [hm] at hmv2
            exact absurd hmv2 (by decide)
        exact ((contentAt_congr hk).trans (hcp hm)).trans hc0.symm
      · exact (hcpN hm r hr).trans (contentAt_congr (hframe' r hr).1)
    · -- unrelated paths are untouched
      intro q hq
      have h0 := hq r0 (List.mem_cons_self _ _)
      rw [hframeN q (fun r hr => (hq r (List.mem_cons_of_mem _ hr)))]
      exact hframe q h0.1 h0.2
    · -- directories survive
      intro q hq
      exact hdirN q (hdirm q hq)
    · -- no new files away from the destinations
      intro q hq
      rcases hnewfN q hq with h | ⟨r, hr, rfl⟩
      · rcases hnewf q h with h | h
        · exact Or.inl h
        · exact Or.inr ⟨r0, List.mem_cons_self _ _, h⟩
      · exact Or.inr ⟨r, List.mem_cons_of_mem _ hr, rfl⟩
    · -- no new specials
      intro q hq
      exact hnews q (hnewsN q hq)
    · -- well-formedness survives
      intro hw
      exact hwfN (hwfp hw)

/-! ### Further shared helpers -/

/-- A directory exists. -/
theorem exists_of_isDir {fs : Node} {p : Path} (h : isDirAt fs p = true) :
    existsAt fs p = true := by
  obtain ⟨es, hl⟩ := isDirAt_iff.mp h
  rw [existsAt, hl]
  rfl

/-- A regular file is not a directory. -/
theorem file_not_dir {fs : Node} {p : Path} (h : isFileAt fs p = true) :
    isDirAt fs p = false := by
  obtain ⟨c, hc⟩ := isFileAt_iff.mp h
  rw [isDirAt, hc]

/-- Well-formedness descends through `lookup`. -/
theorem wf_lookup {p : Path} :
    ∀ {fs m : Node}, wfN fs = true → fs.lookup p = some m → wfN m = true := by
  induction p with
  | nil =>
    intro fs m hwf h
    rw [Node.lookup] at h
    cases h
    exact hwf
  | cons k ks ih =>
    intro fs m hwf h
    cases fs with
    | file c => simp [Node.lookup] at h
    | special => simp [Node.lookup] at h
    | dir es =>
      simp only [Node.lookup] at h
      cases hfe : findEntry es k with
      | none => simp [hfe] at h
      | some n0 =>
        simp only [hfe] at h
        exact ih (wf_findEntry (by simpa [wfN] using hwf) hfe) h

/-- A proper prefix is a prefix of the `dropLast`. -/
theorem pre_dropLast_of_proper {a b : Path} (h : a <+: b) (hne : a ≠ b) :
    a <+: b.dropLast := by
  rcases h with ⟨t, rfl⟩
  cases t with
  | nil => simp at hne
  | cons x xs =>
    rcases List.eq_nil_or_concat (x :: xs) with h0 | ⟨q, k, hq⟩
    · simp at h0
    · rw [hq, List.append_concat k a q, List.concat_eq_append,
        List.dropLast_concat]
      exact pre_append a q

/-- A root is incomparable with any extension of an incomparable root. -/
theorem incomp_of_roots {x y : Path} (hxy : ¬ x <+: y) (hyx : ¬ y <+: x)
    (b : Path) : ¬ x <+: (y ++ b) ∧ ¬ (y ++ b) <+: x := by
  constructor
  · intro h
    rcases pre_total h (pre_append y b) with h' | h'
    · exact hxy h'
    · exact hyx h'
  · intro h
    exact hyx ((pre_append y b).trans h)

/-- A sort decomposition hypothesis preserves membership of the relative
paths (insertion sort permutes its input). -/
theorem sort_decomp_mem {src : Path} {rels R : List Path}
    (hsort : sortFiles (rels.map (fun r => src ++ r))
      = R.map (fun r => src ++ r)) :
    ∀ a, a ∈ rels ↔ a ∈ R := by
  intro a
  have hperm : List.Perm (sortFiles (rels.map (fun r => src ++ r)))
      (rels.map (fun r => src ++ r)) := List.perm_insertionSort _ _
  rw [hsort] at hperm
  constructor
  · intro h
    have hm : src ++ a ∈ R.map (fun r => src ++ r) :=
      hperm.mem_iff.mpr (List.mem_map.mpr ⟨a, h, rfl⟩)
    rcases List.mem_map.mp hm with ⟨b, hb, hab⟩
    have hba : b = a := List.append_cancel_left hab
    exact hba ▸ hb
  · intro h
    have hm : src ++ a ∈ rels.map (fun r => src ++ r) :=
      hperm.mem_iff.mp (List.mem_map.mpr ⟨a, h, rfl⟩)
    rcases List.mem_map.mp hm with ⟨b, hb, hab⟩
    have hba : b = a := List.append_cancel_left hab
    exact hba ▸ hb

/-- The classification loop fails at the first source that is neither a
regular file nor a directory. -/
theorem classifySrcs_invalid {fs : Node} {s : Path}
    (hs1 : isFileAt fs s = false) (hs2 : isDirAt fs s = false) :
    ∀ (A B : List Path),
      (∀ a ∈ A, isFileAt fs a || isDirAt fs a) →
      ∀ af ad, classifySrcs fs (A ++ s :: B) af ad
        = .error (.invalidSource s) := by
  intro A
  induction A with
  | nil =>
    intro B _ af ad
    rw [List.nil_append, classifySrcs]
    simp [hs1, hs2]
  | cons a A2 ih =>
    intro B hA af ad
    rw [List.cons_append, classifySrcs]
    by_cases hf : isFileAt fs a = true
    · rw [if_pos hf]
      exact ih B (fun x hx => hA x (List.mem_cons_of_mem _ hx)) af false
    · have hd : isDirAt fs a = true := by
        have := hA a (List.mem_cons_self _ _)
        rcases Bool.or_eq_true_iff.mp this with h | h
        · exact absurd h hf
        · exact h
      rw [if_neg hf, if_pos hd]
      exact ih B (fun x hx => hA x (List.mem_cons_of_mem _ hx)) false ad

/-- When every source is a file or a directory, the classification loop
computes the two uniformity flags. -/
theorem classifySrcs_ok {fs : Node} :
    ∀ (l : List Path),
      (∀ a ∈ l, isFileAt fs a || isDirAt fs a) →
      ∀ af ad, classifySrcs fs l af ad
        = .ok (af && l.all (fun a => isFileAt fs a),
               ad && l.all (fun a => isDirAt fs a)) := by
  intro l
  induction l with
  | nil => intro _ af ad; simp [classifySrcs]
  | cons a l2 ih =>
    intro hl af ad
    rw [classifySrcs]
    by_cases hf : isFileAt fs a = true
    · rw [if_pos hf]
      rw [ih (fun x hx => hl x (List.mem_cons_of_mem _ hx)) af false]
      have hd : isDirAt fs a = false := file_not_dir hf
      simp [hf, hd]
    · have hd : isDirAt fs a = true := by
        have := hl a (List.mem_cons_self _ _)
        rcases Bool.or_eq_true_iff.mp this with h | h
        · exact absurd h hf
        · exact h
      have hf2 : isFileAt fs a = false := by
        cases h : isFileAt fs a
        · rfl
        · exact absurd h hf
      rw [if_neg hf, if_pos hd]
      rw [ih (fun x hx => hl x (List.mem_cons_of_mem _ hx)) false ad]
      simp [hf2, hd]

/-- Every `process::exit` escaping the merge loop carries status 130. -/
theorem mergeLoop_exited_code {src destp : Path} {moc : MoveOrCopy}
    {force : Bool} {tok : Nat → Bool} {prim : Nat → PrimOutcome} :
    ∀ (F : List Path) (st : MSt) (c : Nat),
      (mergeLoopCore src destp moc force tok prim F st).2 = .exited c →
      c = 130 := by
  intro F
  induction F with
  | nil =>
    intro st c h
    rw [mergeLoopCore] at h
    simp at h
  | cons f rest ih =>
    intro st c h
    rw [mergeLoopCore] at h
    cases hstrip : stripPre src f with
    | none =>
      rw [hstrip] at h
      simp at h
    | some rel =>
      rw [hstrip] at h
      dsimp only at h
      by_cases htok : tok st.pollIdx = true
      · rw [if_pos htok] at h
        simp at h
        omega
      · rw [if_neg htok] at h
        cases hmoc : moveOrCopy st.fs f ⟨destp ++ rel, false⟩ moc force
            (prim st.primIdx) with
        | mk fs2 res =>
          rw [hmoc] at h
          cases res with
          | ok d strat => exact ih _ c h
          | error e => simp at h

/-- The merge loop consults the cancellation token only at its per-file
poll indices: token streams that agree there produce identical runs. -/
theorem mergeLoop_tok_agree {src destp : Path} {moc : MoveOrCopy}
    {force : Bool} {prim : Nat → PrimOutcome} :
    ∀ (F : List Path) (st : MSt) (tok tok2 : Nat → Bool),
      (∀ i, i < F.length → tok (st.pollIdx + i) = tok2 (st.pollIdx + i)) →
      mergeLoopCore src destp moc force tok prim F st
        = mergeLoopCore src destp moc force tok2 prim F st := by
  intro F
  induction F with
  | nil => intro st tok tok2 _; rw [mergeLoopCore, mergeLoopCore]
  | cons f rest ih =>
    intro st tok tok2 hag
    rw [mergeLoopCore, mergeLoopCore]
    cases hstrip : stripPre src f with
    | none => rfl
    | some rel =>
      dsimp only
      have h0 : tok st.pollIdx = tok2 st.pollIdx := by
        have := hag 0 (by simp)
        simpa using this
      rw [← h0]
      by_cases htok : tok st.pollIdx = true
      · rw [if_pos htok, if_pos htok]
      · rw [if_neg htok, if_neg htok]
        cases hmoc : moveOrCopy st.fs f ⟨destp ++ rel, false⟩ moc force
            (prim st.primIdx) with
        | mk fs2 res =>
          cases res with
          | ok d strat =>
            dsimp only
            refine ih _ tok tok2 (fun i hi => ?_)
            have h1 : st.pollIdx + 1 + i = st.pollIdx + (i + 1) := by omega
            rw [h1]
            exact hag (i + 1) (by simp; omega)
          | error e => rfl

/-- Evaluation of `merge_or_copy` past its validation ladder, when the
source is a directory and the destination is an existing directory. -/
theorem mergeOrCopy_eval {st : MSt} {src destp : Path} {moc : MoveOrCopy}
    {force : Bool} {tok : Nat → Bool} {prim : Nat → PrimOutcome}
    {es : Entries}
    (hlsrc : st.fs.lookup src = some (.dir es))
    (hdd : isDirAt st.fs destp = true) :
    mergeOrCopy st src destp moc force tok prim =
      (match collectList es with
       | none => (st, .panicked)
       | some rels =>
         let files := sortFiles (rels.map (fun r => src ++ r))
         let r := mergeLoopCore src destp moc force tok prim files st
         match r.2 with
         | .ok =>
           match moc with
           | .copy => (r.1, .ok)
           | .move =>
             let rr := removeSrcTree (r.1).fs src
             if rr.2 then ({r.1 with fs := rr.1}, .ok)
             else ({r.1 with fs := rr.1}, .error (.ioFail src))
         | out => (r.1, out)) := by
  have hexs : existsAt st.fs src = true := by rw [existsAt, hlsrc]; rfl
  have hdirs : isDirAt st.fs src = true := by rw [isDirAt, hlsrc]
  have hexd : existsAt st.fs destp = true := exists_of_isDir hdd
  rw [mergeOrCopy]
  rw [if_neg (by simp [hexs])]
  rw [if_neg (by simp [hdirs])]
  rw [if_neg (show ¬ ((existsAt st.fs destp && !(isDirAt st.fs destp)) = true)
    by simp [hdd])]
  dsimp only
  rw [if_pos hexd]
  rw [if_neg (by simp)]
  rw [hlsrc]

/-- Every `process::exit` escaping a directory merge carries status 130. -/
theorem mergeOrCopy_exited_code {st : MSt} {src destp : Path}
    {moc : MoveOrCopy} {force : Bool} {tok : Nat → Bool}
    {prim : Nat → PrimOutcome} {c : Nat}
    (h : (mergeOrCopy st src destp moc force tok prim).2 = .exited c) :
    c = 130 := by
  rw [mergeOrCopy] at h
  by_cases h1 : existsAt st.fs src = true
  · rw [if_neg (by simp [h1])] at h
    by_cases h2 : isDirAt st.fs src = true
    · rw [if_neg (by simp [h2])] at h
      by_cases h3 : (existsAt st.fs destp && !(isDirAt st.fs destp)) = true
      · rw [if_pos h3] at h
        simp at h
      · rw [if_neg h3] at h
        dsimp only at h
        set P := (if existsAt st.fs destp then (st.fs, true)
          else Node.createDirAll st.fs destp) with hP
        by_cases hp2 : P.2 = false
        · rw [if_pos hp2] at h
          simp at h
        · rw [if_neg hp2] at h
          cases hl : (P.1).lookup src with
          | none => rw [hl] at h; simp at h
          | some m =>
            rw [hl] at h
            cases m with
            | file c0 => simp at h
            | special => simp at h
            | dir es =>
              dsimp only at h
              cases hcol : collectList es with
              | none => rw [hcol] at h; simp at h
              | some rels =>
                rw [hcol] at h
                dsimp only at h
                cases hr : (mergeLoopCore src destp moc force tok prim
                    (sortFiles (rels.map (fun r => src ++ r)))
                    {st with fs := P.1}).2 with
                | ok =>
                  rw [hr] at h
                  cases moc with
                  | copy => simp at h
                  | move =>
                    dsimp only at h
                    by_cases hrr : (removeSrcTree (mergeLoopCore src destp
                        MoveOrCopy.move force tok prim
                        (sortFiles (rels.map (fun r => src ++ r)))
                        {st with fs := P.1}).1.fs src).2 = true
                    · rw [if_pos hrr] at h
                      simp at h
                    · rw [if_neg hrr] at h
                      simp at h
                | error e => rw [hr] at h; simp at h
                | exited c0 =>
                  rw [hr] at h
                  dsimp only at h
                  have hc0 : c0 = c := by simpa using h
                  exact hc0 ▸ mergeLoop_exited_code _ _ c0 hr
                | panicked => rw [hr] at h; simp at h
    · rw [if_pos (by simp [h2])] at h
      simp at h
  · rw [if_pos (by simp [h1])] at h
    simp at h

/-- Every `process::exit` escaping the per-source batch loop carries
status 130. -/
theorem batchLoop_exited_code {dest : DestInput} {moc : MoveOrCopy}
    {force : Bool} {tok : Nat → Bool} {prim : Nat → PrimOutcome} :
    ∀ (srcs : List Path) (st : MSt) (c : Nat),
      (batchLoop dest moc force tok prim srcs st).2 = .exited c →
      c = 130 := by
  intro srcs
  induction srcs with
  | nil =>
    intro st c h
    rw [batchLoop] at h
    simp at h
  | cons s rest ih =>
    intro st c h
    rw [batchLoop] at h
    by_cases htok : tok st.pollIdx = true
    · rw [if_pos htok] at h
      simp at h
      omega
    · rw [if_neg htok] at h
      dsimp only at h
      by_cases hf : isFileAt st.fs s = true
      · rw [if_pos hf] at h
        cases hmoc : moveOrCopy st.fs s dest moc force (prim st.primIdx) with
        | mk fs2 res =>
          rw [hmoc] at h
          cases res with
          | ok d strat => exact ih _ c h
          | error e => simp at h
      · rw [if_neg hf] at h
        cases hm : mergeOrCopy ⟨st.fs, st.pollIdx + 1, st.primIdx⟩ s dest.path
            moc force tok prim with
        | mk st2 out =>
          rw [hm] at h
          cases out with
          | ok => exact ih _ c h
          | error e => simp at h
          | exited c0 =>
            have hc0 : c0 = c := by simpa using h
            exact hc0 ▸ mergeOrCopy_exited_code (by rw [hm])
          | panicked => simp at h

/-- Every `process::exit` escaping `run_batch` carries status 130:
cancellation is raised as exit status 130 and never as an error value. -/
theorem runBatch_exited_code {fs : Node} {srcs : List Path}
    {dest : DestInput} {ctx : Ctx} {tok : Nat → Bool}
    {prim : Nat → PrimOutcome} {c : Nat}
    (h : (runBatch fs srcs dest ctx tok prim).2 = .exited c) : c = 130 := by
  rw [runBatch] at h
  cases hcl : classifySrcs fs srcs true true with
  | error e => rw [hcl] at h; simp at h
  | ok fl =>
    rw [hcl] at h
    obtain ⟨af, ad⟩ := fl
    dsimp only at h
    by_cases hlen : 1 < srcs.length
    · rw [if_pos hlen] at h
      by_cases hdd : isDirAt fs dest.path = true
      · rw [if_neg (by simp [hdd])] at h
        by_cases hmix : (af || ad) = true
        · rw [if_neg (by simp [hmix])] at h
          by_cases hdry : ctx.dryRun = true
          · rw [if_pos hdry] at h
            simp at h
          · rw [if_neg hdry] at h
            exact batchLoop_exited_code srcs ⟨fs, 0, 0⟩ c h
        · rw [if_pos (by simp [hmix])] at h
          simp at h
      · rw [if_pos (by simp [hdd])] at h
        simp at h
    · rw [if_neg hlen] at h
      by_cases hdry : ctx.dryRun = true
      · rw [if_pos hdry] at h
        simp at h
      · rw [if_neg hdry] at h
        exact batchLoop_exited_code srcs ⟨fs, 0, 0⟩ c h

theorem isSpecialAt_iff {fs : Node} {p : Path} :
    isSpecialAt fs p = true ↔ fs.lookup p = some .special := by
  rw [isSpecialAt]
  cases hl : fs.lookup p with
  | none => simp
  | some m => cases m <;> simp_all

/-- The master success theorem for a directory merge: when every collected
file transfers cleanly, the merge returns `.ok`, every file arrives at its
destination path, in Move mode the source tree is removed entirely (the
sweep of `remove_empty_dir` succeeds because only directories remain), in
Copy mode the source is intact, and unrelated paths are untouched. -/
theorem mergeOrCopy_success {st : MSt} {src destp : Path} {moc : MoveOrCopy}
    {force : Bool} {tok : Nat → Bool} {prim : Nat → PrimOutcome}
    {es : Entries} {rels R : List Path}
    (hsd : ¬ src <+: destp) (hds : ¬ destp <+: src) (hs0 : src ≠ [])
    (hlsrc : st.fs.lookup src = some (.dir es))
    (hdd : isDirAt st.fs destp = true)
    (hcol : collectList es = some rels)
    (hsort : sortFiles (rels.map (fun r => src ++ r))
      = R.map (fun r => src ++ r))
    (hne : ∀ r ∈ R, r ≠ [])
    (hcont : ∀ r ∈ R, ∃ c, contentAt st.fs (src ++ r) = some c)
    (habs : ∀ r ∈ R, st.fs.lookup (destp ++ r) = none)
    (hchain : ∀ r ∈ R, ∀ q, q <+: (destp ++ r).dropLast →
      dirOrAbsentB st.fs q = true)
    (hpair : List.Pairwise preFree R)
    (htok : ∀ i, i < R.length → tok (st.pollIdx + i) = false)
    (hprim : ∀ i, i < R.length → primRecoverable (prim (st.primIdx + i)) = true)
    (hwf : wfN st.fs = true) :
    ∃ fs1,
      mergeOrCopy st src destp moc force tok prim
        = (⟨fs1, st.pollIdx + R.length, st.primIdx + R.length⟩, .ok) ∧
      (∀ r ∈ R, contentAt fs1 (destp ++ r) = contentAt st.fs (src ++ r)) ∧
      (moc = .move → fs1.lookup src = none) ∧
      (moc = .copy → ∀ r ∈ R,
        contentAt fs1 (src ++ r) = contentAt st.fs (src ++ r)) ∧
      (moc = .copy → ∀ q, isDirAt st.fs q = true → isDirAt fs1 q = true) ∧
      (∀ q, (∀ r ∈ R, ¬ q <+: (destp ++ r) ∧
          (moc = .move → ¬ q <+: (src ++ r))) →
        (moc = .move → ¬ q <+: src ∧ ¬ src <+: q) →
        fs1.lookup q = st.fs.lookup q) := by
  obtain ⟨fsL, heqL, hcL, hmvL, hcpL, hframeL, hdirL, hnewfL, hnewsL, hwfL⟩ :=
    mergeLoop_all_ok hsd hds hs0 R st hne hcont habs hchain hpair htok hprim
  have hloop : mergeLoopCore src destp moc force tok prim
      (sortFiles (rels.map (fun r => src ++ r))) st
      = (⟨fsL, st.pollIdx + R.length, st.primIdx + R.length⟩, .ok) := by
    rw [hsort]
    exact heqL
  cases moc with
  | copy =>
    refine ⟨fsL, ?_, hcL, ?_, (fun _ => hcpL rfl), (fun _ => hdirL), ?_⟩
    · rw [mergeOrCopy_eval hlsrc hdd, hcol]
      dsimp only
      rw [hloop]
    · intro hm
      exact absurd hm (by decide)
    · intro q hq _
      exact hframeL q hq
  | move =>
    have hdirsrc : isDirAt st.fs src = true := by rw [isDirAt, hlsrc]
    obtain ⟨es1, hlsrcL⟩ := isDirAt_iff.mp (hdirL src hdirsrc)
    have hwfL2 : wfN fsL = true := hwfL hwf
    have hwfe1 : wfEntries es1 = true := by
      have := wf_lookup hwfL2 hlsrcL
      simpa [wfN] using this
    have hmemRR := sort_decomp_mem hsort
    have hF : ∀ p, isFileAt (Node.dir es1) p = false := by
      intro p
      cases hfi : isFileAt (Node.dir es1) p with
      | false => rfl
      | true =>
        exfalso
        obtain ⟨c, hc⟩ := isFileAt_iff.mp hfi
        have hlk : fsL.lookup (src ++ p) = some (.file c) := by
          rw [lookup_append, hlsrcL]
          exact hc
        have hfiL : isFileAt fsL (src ++ p) = true := by
          rw [isFileAt, hlk]
        rcases hnewfL (src ++ p) hfiL with h | ⟨r, hr, heq2⟩
        · obtain ⟨c0, hc0⟩ := isFileAt_iff.mp h
          have hnode : Node.lookup (.dir es) p = some (.file c0) := by
            have h2 := hc0
            rw [lookup_append, hlsrc] at h2
            exact h2
          have hpR : p ∈ R :=
            (hmemRR p).mp (collectList_complete es rels hcol p c0 hnode)
          have hgone := hmvL rfl p hpR
          rw [hgone] at hlk
          exact absurd hlk (by simp)
        · have h1 : src <+: destp ++ r := heq2 ▸ pre_append src p
          rcases pre_total h1 (pre_append destp r) with h2 | h2
          · exact hsd h2
          · exact hds h2
    have hS : ∀ p, isSpecialAt (Node.dir es1) p = false := by
      intro p
      cases hfi : isSpecialAt (Node.dir es1) p with
      | false => rfl
      | true =>
        exfalso
        have hc := isSpecialAt_iff.mp hfi
        have hlk : fsL.lookup (src ++ p) = some .special := by
          rw [lookup_append, hlsrcL]
          exact hc
        have hfiL : isSpecialAt fsL (src ++ p) = true := by
          rw [isSpecialAt, hlk]
        have h := hnewsL (src ++ p) hfiL
        have h2 := isSpecialAt_iff.mp h
        rw [lookup_append, hlsrc] at h2
        exact collectList_noSpecial es rels hcol p h2
    have hod : onlyDirsList es1 = true := onlyDirs_of_pointwise es1 hwfe1 hF hS
    obtain ⟨fs2, hrem, hsrcnone, hframe2⟩ := removeSrcTree_ok hs0 hlsrcL hod
    refine ⟨fs2, ?_, ?_, (fun _ => hsrcnone), ?_, ?_, ?_⟩
    · rw [mergeOrCopy_eval hlsrc hdd, hcol]
      dsimp only
      rw [hloop]
      dsimp only
      rw [hrem]
      simp
    · intro r hr
      have hinc := incomp_of_roots hsd hds r
      exact (contentAt_congr (hframe2 _ hinc.2 hinc.1)).trans (hcL r hr)
    · intro hm
      exact absurd hm (by decide)
    · intro hm
      exact absurd hm (by decide)
    · intro q hq hmv
      obtain ⟨hq1, hq2⟩ := hmv rfl
      rw [hframe2 q hq1 hq2]
      exact hframeL q hq

/-! ### The spec-side per-level traversal order (for claim C5) -/

/-- Sort one level of (entry name, collected subpaths) pairs
lexicographically by name and flatten, prefixing each subpath with its
entry name.  Modelled from the spec words, not from the code. -/
def levelFlatten (ps : List (String × List Path)) : List Path :=
  (List.insertionSort (fun a b : String × List Path =>
      charListLe a.1.data b.1.data = true) ps).flatMap
    (fun kv => kv.2.map (fun p => kv.1 :: p))

mutual

/-- Modelled from the spec words, not from the code: the relative file
paths below one node in the spec order ("at each directory level, entries
are sorted lexicographically by path before processing"). -/
def specNodeFiles : Node → List Path
  | .file _ => [[]]
  | .dir es => levelFlatten (specPairs es)
  | .special => []

/-- Modelled from the spec words, not from the code: the per-entry
collected subpaths of a level, keyed by entry name. -/
def specPairs : Entries → List (String × List Path)
  | [] => []
  | (k, n) :: rest => (k, specNodeFiles n) :: specPairs rest

end

/-- Modelled from the spec words, not from the code: the file order
obtained by sorting each directory level lexicographically and recursing
in that order. -/
def specLevelCollect (es : Entries) : List Path :=
  levelFlatten (specPairs es)

/-- Two sorted lists that are permutations of each other and have no
duplicate rendered forms are equal: the processing order of the merge is
uniquely determined. -/
theorem sorted_perm_eq :
    ∀ (L1 L2 : List Path), List.Perm L1 L2 →
      List.Sorted pathLe L1 → List.Sorted pathLe L2 →
      (L2.map render).Nodup → L1 = L2 := by
  intro L1
  induction L1 with
  | nil =>
    intro L2 hp _ _ _
    cases L2 with
    | nil => rfl
    | cons b t2 =>
      have := hp.length_eq
      simp at this
  | cons a t ih =>
    intro L2 hp hs1 hs2 hnd
    cases L2 with
    | nil =>
      have := hp.length_eq
      simp at this
    | cons b t2 =>
      have hab : a = b := by
        have haL2 : a ∈ b :: t2 := hp.mem_iff.mp (List.mem_cons_self _ _)
        have hbL1 : b ∈ a :: t := hp.mem_iff.mpr (List.mem_cons_self _ _)
        rcases List.mem_cons.mp haL2 with h | h
        · exact h
        · have h1 : pathLe b a := (List.sorted_cons.mp hs2).1 a h
          rcases List.mem_cons.mp hbL1 with h2 | h2
          · exact h2.symm
          · have h3 : pathLe a b := (List.sorted_cons.mp hs1).1 b h2
            have hr : render a = render b := pathLe_antisymm h3 h1
            have hmem : render a ∈ t2.map render := List.mem_map.mpr ⟨a, h, rfl⟩
            rw [hr] at hmem
            have hnd2 : render b ∉ t2.map render := by
              rw [List.map_cons, List.nodup_cons] at hnd
              exact hnd.1
            exact absurd hmem hnd2
      subst hab
      have hperm2 : List.Perm t t2 := hp.cons_inv
      have hnd2 : (t2.map render).Nodup := by
        rw [List.map_cons, List.nodup_cons] at hnd
        exact hnd.2
      rw [ih t2 hperm2 (List.sorted_cons.mp hs1).2 (List.sorted_cons.mp hs2).2
        hnd2]

theorem isFileAt_congr {a b : Node} {p : Path}
    (h : a.lookup p = b.lookup p) : isFileAt a p = isFileAt b p := by
  rw [isFileAt, isFileAt, h]

theorem isDirAt_congr {a b : Node} {p : Path}
    (h : a.lookup p = b.lookup p) : isDirAt a p = isDirAt b p := by
  rw [isDirAt, isDirAt, h]

/-! ### Claim C10 -/

/-- C10: if the source tree of a directory merge contains an entry that is
neither a regular file nor a directory, the collection step makes the
merge panic (it does not return an error through the normal result
channel); when the tree holds only regular files and directories the panic
branch is unreachable (collection always succeeds). -/
theorem c10_collection_panic :
    (∀ (st : MSt) (src destp : Path) (moc : MoveOrCopy) (force : Bool)
       (tok : Nat → Bool) (prim : Nat → PrimOutcome) (es : Entries),
       st.fs.lookup src = some (.dir es) →
       isDirAt st.fs destp = true →
       anySpecial es = true →
       mergeOrCopy st src destp moc force tok prim = (st, .panicked)) ∧
    (∀ es : Entries, anySpecial es = false →
       ∃ rels, collectList es = some rels) := by
  constructor
  · intro st src destp moc force tok prim es hlsrc hdd hsp
    have hcol : collectList es = none := (collectList_none_iff es).mpr hsp
    rw [mergeOrCopy_eval hlsrc hdd, hcol]
  · intro es hsp
    cases hcol : collectList es with
    | none =>
      have := (collectList_none_iff es).mp hcol
      rw [this] at hsp
      exact absurd hsp (by simp)
    | some rels => exact ⟨rels, rfl⟩

theorem c10_witness :
    mergeOrCopy ⟨Node.dir [("s", .dir [("x", .special)]), ("d", .dir [])],
        0, 0⟩ ["s"] ["d"] .move false (fun _ => false) (fun _ => .ok)
      = (⟨Node.dir [("s", .dir [("x", .special)]), ("d", .dir [])], 0, 0⟩,
        .panicked) :=
  c10_collection_panic.1 _ ["s"] ["d"] .move false _ _ [("x", .special)]
    (by rfl) (by decide) (by decide)

/-! ### Claim C4 -/

/-- C4: cancellation is polled once between files of a directory merge and
once between batch sources, never mid-file; on first detection the loop
stops with `process::exit(130)` before any further transfer begins (the
state is returned untouched), the merge loop consults the token only at
its per-file poll points, and any exit escaping `run_batch` carries status
130 rather than an error value. -/
theorem c4_cancellation :
    (∀ (src destp : Path) (moc : MoveOrCopy) (force : Bool)
       (tok : Nat → Bool) (prim : Nat → PrimOutcome)
       (f : Path) (rest : List Path) (st : MSt) (rel : Path),
       stripPre src f = some rel → tok st.pollIdx = true →
       mergeLoopCore src destp moc force tok prim (f :: rest) st
         = (st, .exited 130)) ∧
    (∀ (dest : DestInput) (moc : MoveOrCopy) (force : Bool)
       (tok : Nat → Bool) (prim : Nat → PrimOutcome)
       (s : Path) (rest : List Path) (st : MSt),
       tok st.pollIdx = true →
       batchLoop dest moc force tok prim (s :: rest) st = (st, .exited 130)) ∧
    (∀ (src destp : Path) (moc : MoveOrCopy) (force : Bool)
       (prim : Nat → PrimOutcome) (F : List Path) (st : MSt)
       (tok tok2 : Nat → Bool),
       (∀ i, i < F.length → tok (st.pollIdx + i) = tok2 (st.pollIdx + i)) →
       mergeLoopCore src destp moc force tok prim F st
         = mergeLoopCore src destp moc force tok2 prim F st) ∧
    (∀ (fs : Node) (srcs : List Path) (dest : DestInput) (ctx : Ctx)
       (tok : Nat → Bool) (prim : Nat → PrimOutcome) (c : Nat),
       (runBatch fs srcs dest ctx tok prim).2 = .exited c → c = 130) := by
  refine ⟨?_, ?_, ?_, ?_⟩
  · intro src destp moc force tok prim f rest st rel hstrip htok
    rw [mergeLoopCore, hstrip]
    dsimp only
    rw [if_pos htok]
  · intro dest moc force tok prim s rest st htok
    rw [batchLoop, if_pos htok]
  · intro src destp moc force prim F st tok tok2 hag
    exact mergeLoop_tok_agree F st tok tok2 hag
  · intro fs srcs dest ctx tok prim c h
    exact runBatch_exited_code h

theorem c4_witness :
    mergeLoopCore ["s"] ["d"] .move false (fun _ => true) (fun _ => .ok)
      [["s", "x"]] ⟨Node.dir [], 0, 0⟩ = (⟨Node.dir [], 0, 0⟩, .exited 130) :=
  c4_cancellation.1 ["s"] ["d"] .move false _ _ ["s", "x"] []
    ⟨Node.dir [], 0, 0⟩ ["x"] (by rfl) (by decide)

/-! ### Claim C9 -/

/-- Counterexample to C9 as stated: with two sources that mix a file and a
directory AND a destination that is not an existing directory, `run_batch`
does not fail with the MixedSourceKinds-class error the claim assigns to
mixed sources; the destination check runs first and the error is
`multiSrcDestNotDir`. -/
theorem c9_counterexample :
    let fs : Node := .dir [("a", .file [1]), ("b", .dir []), ("c", .file [2])]
    isFileAt fs ["a"] = true ∧ isDirAt fs ["b"] = true ∧
    isDirAt fs ["c"] = false ∧
    (runBatch fs [["a"], ["b"]] ⟨["c"], false⟩ ⟨.move, false, false⟩
        (fun _ => false) (fun _ => .ok)).2
      = .error .multiSrcDestNotDir := by decide

/-- C9 (amended): the batch-level validations run in a fixed order before
any mutation — first the per-source file-or-directory scan (failing with
`invalidSource` at the first offender), then, for more than one source,
the destination-directory check (`multiSrcDestNotDir`), and only then the
uniformity check (`mixedKinds`, reached only when the destination is a
directory); each failure returns the filesystem unchanged. -/
theorem c9_batch_validation
    (fs : Node) (srcs : List Path) (dest : DestInput) (ctx : Ctx)
    (tok : Nat → Bool) (prim : Nat → PrimOutcome) :
    (∀ (A B : List Path) (s : Path),
       srcs = A ++ s :: B →
       (∀ a ∈ A, isFileAt fs a || isDirAt fs a) →
       isFileAt fs s = false → isDirAt fs s = false →
       runBatch fs srcs dest ctx tok prim
         = (fs, .error (.invalidSource s))) ∧
    ((∀ a ∈ srcs, isFileAt fs a || isDirAt fs a) →
     1 < srcs.length →
     isDirAt fs dest.path = false →
     runBatch fs srcs dest ctx tok prim = (fs, .error .multiSrcDestNotDir)) ∧
    ((∀ a ∈ srcs, isFileAt fs a || isDirAt fs a) →
     1 < srcs.length →
     isDirAt fs dest.path = true →
     srcs.all (fun a => isFileAt fs a) = false →
     srcs.all (fun a => isDirAt fs a) = false →
     runBatch fs srcs dest ctx tok prim = (fs, .error .mixedKinds)) := by
  refine ⟨?_, ?_, ?_⟩
  · intro A B s hsrcs hA hs1 hs2
    subst hsrcs
    rw [runBatch, classifySrcs_invalid hs1 hs2 A B hA true true]
  · intro hval hlen hdd
    rw [runBatch, classifySrcs_ok srcs hval true true]
    dsimp only
    rw [if_pos hlen, if_pos (by simp [hdd])]
  · intro hval hlen hdd hfall hdall
    rw [runBatch, classifySrcs_ok srcs hval true true]
    dsimp only
    rw [if_pos hlen, if_neg (by simp [hdd]),
      if_pos (by simp [hfall, hdall])]

theorem c9_witness :
    runBatch (.dir [("a", .file [1]), ("b", .dir []), ("c", .file [2])])
      [["a"], ["b"]] ⟨["c"], false⟩ ⟨.move, false, false⟩
      (fun _ => false) (fun _ => .ok)
      = (.dir [("a", .file [1]), ("b", .dir []), ("c", .file [2])],
        .error .multiSrcDestNotDir) :=
  (c9_batch_validation _ _ _ _ _ _).2.1 (by decide) (by decide) (by decide)

/-! ### Claim C6 -/

/-- Counterexample to C6 as stated: a source subdirectory containing no
regular file is NOT created in the destination.  The merge below succeeds
and transfers the one regular file, but the empty source subdirectory
`s/e` has no counterpart `d/e` afterwards (only files are collected and
transferred; directories are created only as parents of files). -/
theorem c6_counterexample :
    let fs : Node := .dir [("s", .dir [("e", .dir []), ("x", .file [1])]),
      ("d", .dir [])]
    let r := mergeOrCopy ⟨fs, 0, 0⟩ ["s"] ["d"] .copy false
      (fun _ => false) (fun _ => .ok)
    isDirAt fs ["s", "e"] = true ∧
    collectList [("e", .dir []), ("x", .file [1])] = some [["x"]] ∧
    r.2 = .ok ∧
    existsAt r.1.fs ["d", "x"] = true ∧
    existsAt r.1.fs ["d", "e"] = false := by decide

/-- C6 (amended): in a clean directory merge an empty source subdirectory
is not created in the destination; in Copy mode it stays in place in the
source, and in Move mode the whole source tree — the empty subdirectories
included — is removed after all contents have been transferred. -/
theorem c6_empty_subdirs
    (st : MSt) (src destp : Path) (moc : MoveOrCopy) (force : Bool)
    (tok : Nat → Bool) (prim : Nat → PrimOutcome)
    (es : Entries) (rels R : List Path) (t : Path)
    (hsd : isPre src destp = false) (hds : isPre destp src = false)
    (hs0 : src ≠ [])
    (hlsrc : st.fs.lookup src = some (.dir es))
    (hdd : isDirAt st.fs destp = true)
    (hcol : collectList es = some rels)
    (hsort : sortFiles (rels.map (fun r => src ++ r))
      = R.map (fun r => src ++ r))
    (hne : ∀ r ∈ R, r ≠ [])
    (hcont : ∀ r ∈ R, isFileAt st.fs (src ++ r) = true)
    (habs : ∀ r ∈ R, existsAt st.fs (destp ++ r) = false)
    (hchain : ∀ r ∈ R, chainOk st.fs ((destp ++ r).dropLast) = true)
    (hpair : List.Pairwise preFree R)
    (htok : ∀ i, i < R.length → tok (st.pollIdx + i) = false)
    (hprim : ∀ i, i < R.length →
      primRecoverable (prim (st.primIdx + i)) = true)
    (hwf : wfN st.fs = true)
    (htdir : isDirAt st.fs (src ++ t) = true)
    (htnof : ∀ r ∈ R, isPre t r = false)
    (htabs : existsAt st.fs (destp ++ t) = false) :
    ∃ fs1,
      mergeOrCopy st src destp moc force tok prim
        = (⟨fs1, st.pollIdx + R.length, st.primIdx + R.length⟩, .ok) ∧
      existsAt fs1 (destp ++ t) = false ∧
      (moc = .copy → isDirAt fs1 (src ++ t) = true) ∧
      (moc = .move →
        fs1.lookup src = none ∧ existsAt fs1 (src ++ t) = false) := by
  have hsd2 : ¬ src <+: destp := (isPre_false_iff src destp).mp hsd
  have hds2 : ¬ destp <+: src := (isPre_false_iff destp src).mp hds
  have hcont2 : ∀ r ∈ R, ∃ c, contentAt st.fs (src ++ r) = some c := by
    intro r hr
    obtain ⟨c, hc⟩ := isFileAt_iff.mp (hcont r hr)
    exact ⟨c, contentAt_eq_some.mpr hc⟩
  have habs2 : ∀ r ∈ R, st.fs.lookup (destp ++ r) = none :=
    fun r hr => existsAt_false.mp (habs r hr)
  have hchain2 : ∀ r ∈ R, ∀ q, q <+: (destp ++ r).dropLast →
      dirOrAbsentB st.fs q = true :=
    fun r hr => chainOk_iff.mp (hchain r hr)
  obtain ⟨fs1, heval, hcd, hmvsrc, hcpsrc, hcpdir, hframe⟩ :=
    mergeOrCopy_success hsd2 hds2 hs0 hlsrc hdd hcol hsort hne hcont2 habs2
      hchain2 hpair htok hprim hwf
  have hfr : fs1.lookup (destp ++ t) = st.fs.lookup (destp ++ t) := by
    refine hframe (destp ++ t) (fun r hr => ⟨?_, fun _ => ?_⟩) (fun _ => ?_)
    · rw [append_pre_append_iff]
      exact (isPre_false_iff t r).mp (htnof r hr)
    · exact cross_incomp hds2 hsd2 t r
    · have h := incomp_of_roots hsd2 hds2 t
      exact ⟨h.2, h.1⟩
  refine ⟨fs1, heval, ?_, ?_, ?_⟩
  · rw [existsAt, hfr, existsAt_false.mp htabs]
    rfl
  · intro hm
    exact hcpdir hm (src ++ t) htdir
  · intro hm
    refine ⟨hmvsrc hm, ?_⟩
    rw [existsAt, lookup_append, hmvsrc hm]
    rfl

theorem c6_witness :
    ∃ fs1,
      mergeOrCopy ⟨.dir [("s", .dir [("e", .dir []), ("x", .file [1])]),
          ("d", .dir [])], 0, 0⟩ ["s"] ["d"] .move false
          (fun _ => false) (fun _ => .ok)
        = (⟨fs1, 1, 1⟩, .ok) ∧
      existsAt fs1 ["d", "e"] = false ∧
      (MoveOrCopy.move = .copy → isDirAt fs1 ["s", "e"] = true) ∧
      (MoveOrCopy.move = .move →
        fs1.lookup ["s"] = none ∧ existsAt fs1 ["s", "e"] = false) :=
  c6_empty_subdirs
    ⟨.dir [("s", .dir [("e", .dir []), ("x", .file [1])]), ("d", .dir [])],
      0, 0⟩
    ["s"] ["d"] .move false (fun _ => false) (fun _ => .ok)
    [("e", .dir []), ("x", .file [1])] [["x"]] [["x"]] ["e"]
    (by decide) (by decide) (by decide) (by rfl) (by decide) (by decide)
    (by decide) (by decide) (by decide) (by decide) (by decide) (by decide)
    (by decide) (by decide) (by decide) (by decide) (by decide) (by decide)

/-! ### Claim C7 -/

/-- Counterexample to C7 as stated: a successful forced merge can
overwrite a pre-existing destination file whose relative path has no
corresponding entry in the source tree.  Source `s` holds the file `x`;
the destination holds a directory `x` containing a file `x`.  `ensure_dest`
redirects the transfer of `s/x` into `d/x/x` (destination is an existing
directory, so the source file name is appended) and `force` overwrites it,
although the source tree has no entry at relative path `x/x`. -/
theorem c7_counterexample :
    let fs : Node := .dir [("s", .dir [("x", .file [1])]),
      ("d", .dir [("x", .dir [("x", .file [9])])])]
    let r := mergeOrCopy ⟨fs, 0, 0⟩ ["s"] ["d"] .copy true
      (fun _ => false) (fun _ => .ok)
    r.2 = .ok ∧
    existsAt fs ["s", "x", "x"] = false ∧
    contentAt fs ["d", "x", "x"] = some [9] ∧
    contentAt r.1.fs ["d", "x", "x"] = some [1] := by decide

/-- C7 (amended): in a clean directory merge — every collected file lands
on a fresh destination path, so no `ensure_dest` redirection into existing
destination directories occurs — every pre-existing destination file whose
relative path has no source counterpart keeps its content, and every path
outside the transferred set (and, in Move mode, outside the source tree)
is untouched. -/
theorem c7_dest_preservation
    (st : MSt) (src destp : Path) (moc : MoveOrCopy) (force : Bool)
    (tok : Nat → Bool) (prim : Nat → PrimOutcome)
    (es : Entries) (rels R : List Path) (t : Path)
    (hsd : isPre src destp = false) (hds : isPre destp src = false)
    (hs0 : src ≠ [])
    (hlsrc : st.fs.lookup src = some (.dir es))
    (hdd : isDirAt st.fs destp = true)
    (hcol : collectList es = some rels)
    (hsort : sortFiles (rels.map (fun r => src ++ r))
      = R.map (fun r => src ++ r))
    (hne : ∀ r ∈ R, r ≠ [])
    (hcont : ∀ r ∈ R, isFileAt st.fs (src ++ r) = true)
    (habs : ∀ r ∈ R, existsAt st.fs (destp ++ r) = false)
    (hchain : ∀ r ∈ R, chainOk st.fs ((destp ++ r).dropLast) = true)
    (hpair : List.Pairwise preFree R)
    (htok : ∀ i, i < R.length → tok (st.pollIdx + i) = false)
    (hprim : ∀ i, i < R.length →
      primRecoverable (prim (st.primIdx + i)) = true)
    (hwf : wfN st.fs = true)
    (htfile : isFileAt st.fs (destp ++ t) = true) :
    ∃ fs1,
      mergeOrCopy st src destp moc force tok prim
        = (⟨fs1, st.pollIdx + R.length, st.primIdx + R.length⟩, .ok) ∧
      (∀ r ∈ R, contentAt fs1 (destp ++ r) = contentAt st.fs (src ++ r)) ∧
      contentAt fs1 (destp ++ t) = contentAt st.fs (destp ++ t) ∧
      (∀ q, (∀ r ∈ R, ¬ q <+: (destp ++ r) ∧
          (moc = .move → ¬ q <+: (src ++ r))) →
        (moc = .move → ¬ q <+: src ∧ ¬ src <+: q) →
        fs1.lookup q = st.fs.lookup q) := by
  have hsd2 : ¬ src <+: destp := (isPre_false_iff src destp).mp hsd
  have hds2 : ¬ destp <+: src := (isPre_false_iff destp src).mp hds
  have hcont2 : ∀ r ∈ R, ∃ c, contentAt st.fs (src ++ r) = some c := by
    intro r hr
    obtain ⟨c, hc⟩ := isFileAt_iff.mp (hcont r hr)
    exact ⟨c, contentAt_eq_some.mpr hc⟩
  have habs2 : ∀ r ∈ R, st.fs.lookup (destp ++ r) = none :=
    fun r hr => existsAt_false.mp (habs r hr)
  have hchain2 : ∀ r ∈ R, ∀ q, q <+: (destp ++ r).dropLast →
      dirOrAbsentB st.fs q = true :=
    fun r hr => chainOk_iff.mp (hchain r hr)
  obtain ⟨fs1, heval, hcd, hmvsrc, hcpsrc, hcpdir, hframe⟩ :=
    mergeOrCopy_success hsd2 hds2 hs0 hlsrc hdd hcol hsort hne hcont2 habs2
      hchain2 hpair htok hprim hwf
  have hfr : fs1.lookup (destp ++ t) = st.fs.lookup (destp ++ t) := by
    refine hframe (destp ++ t) (fun r hr => ⟨?_, fun _ => ?_⟩) (fun _ => ?_)
    · intro hp
      rw [append_pre_append_iff] at hp
      by_cases hteq : t = r
      · subst hteq
        obtain ⟨c, hc⟩ := isFileAt_iff.mp htfile
        rw [habs2 t hr] at hc
        exact absurd hc (by simp)
      · have hprop : (destp ++ t) <+: (destp ++ r).dropLast :=
          pre_dropLast_of_proper ((append_pre_append_iff destp t r).mpr hp)
            (fun he => hteq (List.append_cancel_left he))
        have hda := hchain2 r hr _ hprop
        have h2 := (dirOrAbsentB_iff.mp hda).1
        rw [htfile] at h2
        exact absurd h2 (by simp)
    · exact cross_incomp hds2 hsd2 t r
    · have h := incomp_of_roots hsd2 hds2 t
      exact ⟨h.2, h.1⟩
  exact ⟨fs1, heval, hcd, contentAt_congr hfr, hframe⟩

theorem c7_witness :
    ∃ fs1,
      mergeOrCopy ⟨.dir [("s", .dir [("x", .file [1])]),
          ("d", .dir [("y", .file [7])])], 0, 0⟩ ["s"] ["d"] .move false
          (fun _ => false) (fun _ => .ok)
        = (⟨fs1, 1, 1⟩, .ok) ∧
      contentAt fs1 ["d", "x"] = some [1] ∧
      contentAt fs1 ["d", "y"] = some [7] := by
  obtain ⟨fs1, heval, hcd, hty, hframe⟩ :=
    c7_dest_preservation
      ⟨.dir [("s", .dir [("x", .file [1])]), ("d", .dir [("y", .file [7])])],
        0, 0⟩
      ["s"] ["d"] .move false (fun _ => false) (fun _ => .ok)
      [("x", .file [1])] [["x"]] [["x"]] ["y"]
      (by decide) (by decide) (by decide) (by rfl) (by decide) (by decide)
      (by decide) (by decide) (by decide) (by decide) (by decide)
      (by decide) (by decide) (by decide) (by decide) (by decide)
  refine ⟨fs1, heval, ?_, ?_⟩
  · exact (hcd ["x"] (by decide)).trans (by decide)
  · exact hty.trans (by decide)

/-! ### Claim C3 -/

/-- Counterexample to C3 as stated: the merge does not necessarily stop at
the first source file whose relative path exists as a file in the
destination, and the `DestinationExists` error need not name such a path.
Here the genuine file collision is at relative path `b` (`d/b` is a file),
but the earlier file `s/a` meets a destination DIRECTORY `d/a`, is
redirected by `ensure_dest` onto `d/a/a` — an existing file — and the
merge stops there instead, naming `d/a/a`. -/
theorem c3_counterexample :
    let fs : Node := .dir [("s", .dir [("a", .file [1]), ("b", .file [2])]),
      ("d", .dir [("a", .dir [("a", .file [9])]), ("b", .file [8])])]
    isFileAt fs ["s", "b"] = true ∧
    isFileAt fs ["d", "b"] = true ∧
    isFileAt fs ["d", "a"] = false ∧
    (mergeOrCopy ⟨fs, 0, 0⟩ ["s"] ["d"] .copy false
        (fun _ => false) (fun _ => .ok)).2
      = .error (.destExistsNoForce ["d", "a", "a"]) := by decide

/-- C3 (amended): when every file before the collision lands on a fresh
destination path and the colliding relative path `r0` exists as a file in
the destination, a `force = false` merge transfers exactly the earlier
files, stops at `r0` with `DestinationExists` naming `destp ++ r0`, leaves
the colliding destination file intact, touches no unrelated path (in
particular no later file), and leaves the source tree in place. -/
theorem c3_merge_conflict
    (st : MSt) (src destp : Path) (moc : MoveOrCopy)
    (tok : Nat → Bool) (prim : Nat → PrimOutcome)
    (es : Entries) (rels : List Path) (A : List Path) (r0 : Path)
    (B : List Path)
    (hsd : isPre src destp = false) (hds : isPre destp src = false)
    (hs0 : src ≠ [])
    (hlsrc : st.fs.lookup src = some (.dir es))
    (hdd : isDirAt st.fs destp = true)
    (hcol : collectList es = some rels)
    (hsort : sortFiles (rels.map (fun r => src ++ r))
      = (A ++ r0 :: B).map (fun r => src ++ r))
    (hne : ∀ r ∈ A, r ≠ [])
    (hcont : ∀ r ∈ A, isFileAt st.fs (src ++ r) = true)
    (habs : ∀ r ∈ A, existsAt st.fs (destp ++ r) = false)
    (hchain : ∀ r ∈ A, chainOk st.fs ((destp ++ r).dropLast) = true)
    (hpair : List.Pairwise preFree (A ++ [r0]))
    (htok : ∀ i, i < A.length + 1 → tok (st.pollIdx + i) = false)
    (hprim : ∀ i, i < A.length →
      primRecoverable (prim (st.primIdx + i)) = true)
    (hr0src : isFileAt st.fs (src ++ r0) = true)
    (hr0dst : isFileAt st.fs (destp ++ r0) = true) :
    ∃ fs1,
      mergeOrCopy st src destp moc false tok prim
        = (⟨fs1, st.pollIdx + A.length + 1, st.primIdx + A.length + 1⟩,
          .error (.destExistsNoForce (destp ++ r0))) ∧
      (∀ r ∈ A, contentAt fs1 (destp ++ r) = contentAt st.fs (src ++ r)) ∧
      contentAt fs1 (destp ++ r0) = contentAt st.fs (destp ++ r0) ∧
      (∀ q, (∀ r ∈ A, ¬ q <+: (destp ++ r) ∧
          (moc = .move → ¬ q <+: (src ++ r))) →
        fs1.lookup q = st.fs.lookup q) ∧
      isDirAt fs1 src = true := by
  have hsd2 : ¬ src <+: destp := (isPre_false_iff src destp).mp hsd
  have hds2 : ¬ destp <+: src := (isPre_false_iff destp src).mp hds
  have hcont2 : ∀ r ∈ A, ∃ c, contentAt st.fs (src ++ r) = some c := by
    intro r hr
    obtain ⟨c, hc⟩ := isFileAt_iff.mp (hcont r hr)
    exact ⟨c, contentAt_eq_some.mpr hc⟩
  have habs2 : ∀ r ∈ A, st.fs.lookup (destp ++ r) = none :=
    fun r hr => existsAt_false.mp (habs r hr)
  have hchain2 : ∀ r ∈ A, ∀ q, q <+: (destp ++ r).dropLast →
      dirOrAbsentB st.fs q = true :=
    fun r hr => chainOk_iff.mp (hchain r hr)
  rw [List.pairwise_append] at hpair
  have hpairA : List.Pairwise preFree A := hpair.1
  have hcross : ∀ r ∈ A, preFree r r0 := by
    intro r hr
    exact hpair.2.2 r hr r0 (List.mem_singleton.mpr rfl)
  have htokA : ∀ i, i < A.length → tok (st.pollIdx + i) = false :=
    fun i hi => htok i (by omega)
  obtain ⟨fsA, heqA, hcA, hmvA, hcpA, hframeA, hdirA, hnewfA, hnewsA, hwfA⟩ :=
    mergeLoop_all_ok hsd2 hds2 hs0 A st hne hcont2 habs2 hchain2 hpairA
      htokA hprim
  have hsrc0 : fsA.lookup (src ++ r0) = st.fs.lookup (src ++ r0) := by
    refine hframeA (src ++ r0) (fun r hr => ⟨?_, fun _ => ?_⟩)
    · exact cross_incomp hsd2 hds2 r0 r
    · rw [append_pre_append_iff]
      exact (hcross r hr).2
  have hdst0 : fsA.lookup (destp ++ r0) = st.fs.lookup (destp ++ r0) := by
    refine hframeA (destp ++ r0) (fun r hr => ⟨?_, fun _ => ?_⟩)
    · rw [append_pre_append_iff]
      exact (hcross r hr).2
    · exact cross_incomp hds2 hsd2 r0 r
  have hens := ensureDest_conflict
    (by rw [isFileAt_congr hsrc0]; exact hr0src)
    (by rw [isFileAt_congr hdst0]; exact hr0dst)
  have hmc := @moveOrCopy_ensure_error fsA (src ++ r0) ⟨destp ++ r0, false⟩
    moc false (prim (st.primIdx + A.length)) (.destExistsNoForce (destp ++ r0))
    hens
  refine ⟨fsA, ?_, hcA, contentAt_congr hdst0, hframeA, ?_⟩
  · rw [mergeOrCopy_eval hlsrc hdd, hcol]
    dsimp only
    have hfiles : sortFiles (rels.map (fun r => src ++ r))
        = A.map (fun r => src ++ r)
          ++ (src ++ r0) :: B.map (fun r => src ++ r) := by
      rw [hsort]
      simp
    rw [hfiles, mergeLoop_append, heqA]
    dsimp only
    rw [mergeLoopCore, stripPre_append]
    dsimp only
    have htokr0 : tok (st.pollIdx + A.length) = false := htok A.length (by omega)
    rw [if_neg (by simp [htokr0])]
    rw [hmc]
  · have hdirsrc : isDirAt st.fs src = true := by rw [isDirAt, hlsrc]
    exact hdirA src hdirsrc

theorem c3_witness :
    ∃ fs1,
      mergeOrCopy ⟨.dir [("s", .dir [("a", .file [1]), ("b", .file [2])]),
          ("d", .dir [("b", .file [8])])], 0, 0⟩ ["s"] ["d"] .move false
          (fun _ => false) (fun _ => .ok)
        = (⟨fs1, 2, 2⟩, .error (.destExistsNoForce ["d", "b"])) ∧
      contentAt fs1 ["d", "a"] = some [1] ∧
      contentAt fs1 ["d", "b"] = some [8] ∧
      isDirAt fs1 ["s"] = true := by
  obtain ⟨fs1, heval, hcA, hc0, hframe, hsdir⟩ :=
    c3_merge_conflict
      ⟨.dir [("s", .dir [("a", .file [1]), ("b", .file [2])]),
        ("d", .dir [("b", .file [8])])], 0, 0⟩
      ["s"] ["d"] .move (fun _ => false) (fun _ => .ok)
      [("a", .file [1]), ("b", .file [2])] [["a"], ["b"]] [["a"]] ["b"] []
      (by decide) (by decide) (by decide) (by rfl) (by decide) (by decide)
      (by decide) (by decide) (by decide) (by decide) (by decide)
      (by decide) (by decide) (by decide) (by decide) (by decide)
  refine ⟨fs1, heval, ?_, ?_, hsdir⟩
  · exact (hcA ["a"] (by decide)).trans (by decide)
  · exact hc0.trans (by decide)

/-! ### Claim C5 -/

/-- Counterexample to C5 as stated: the merge order is the global sort of
the full textual paths, not a per-level sort.  With sibling directories
`a.b` and `a`, the per-level order the spec describes visits `a/x` before
`a.b/x` (`"a" < "a.b"` at the level), while the code sorts the joined
paths and visits `s/a.b/x` first (`"s/a.b/x" < "s/a/x"` since the byte
for the dot sorts before the path separator). -/
theorem c5_counterexample :
    let es : Entries := [("a.b", .dir [("x", .file [1])]),
      ("a", .dir [("x", .file [2])])]
    collectList es = some [["a.b", "x"], ["a", "x"]] ∧
    sortFiles ([["a.b", "x"], ["a", "x"]].map (fun r => ["s"] ++ r))
      = [["s", "a.b", "x"], ["s", "a", "x"]] ∧
    specLevelCollect es = [["a", "x"], ["a.b", "x"]] ∧
    sortFiles ([["a.b", "x"], ["a", "x"]].map (fun r => ["s"] ++ r))
      ≠ (specLevelCollect es).map (fun r => ["s"] ++ r) := by decide

/-- C5 (amended): the processing order of a directory merge is
deterministic, but it is the single global sort of the full textual
paths of the collected files, not a per-level sort: `sortFiles` permutes
the collected list into the unique `pathLe`-sorted arrangement (unique as
soon as no two files share their rendered text), so two runs over the
same tree perform the same operation sequence. -/
theorem c5_deterministic_order :
    (∀ l : List Path, List.Perm (sortFiles l) l) ∧
    (∀ l : List Path, List.Sorted pathLe (sortFiles l)) ∧
    (∀ (l L : List Path), List.Perm L l → List.Sorted pathLe L →
      (l.map render).Nodup → L = sortFiles l) := by
  refine ⟨fun l => List.perm_insertionSort _ _,
    fun l => List.sorted_insertionSort _ _, ?_⟩
  intro l L hp hs hnd
  refine sorted_perm_eq L (sortFiles l)
    (hp.trans (List.perm_insertionSort pathLe l).symm) hs
    (List.sorted_insertionSort _ _) ?_
  have hperm2 : List.Perm ((sortFiles l).map render) (l.map render) :=
    (List.perm_insertionSort pathLe l).map render
  exact hperm2.nodup_iff.mpr hnd

theorem c5_witness :
    [["a"], ["b"]] = sortFiles [["b"], ["a"]] :=
  c5_deterministic_order.2.2 [["b"], ["a"]] [["a"], ["b"]]
    (by decide) (by decide) (by decide)

end Mvx
